import Mathlib

/-!
Verification development for the DRPObject engine
(src/packages/object/src/index.ts of ts-drp).

The engine is shallowly embedded: JavaScript objects holding data
attributes become association lists from attribute names to values,
JavaScript exceptions become `Except` (with partial mutation before a
throw preserved, as on a JavaScript object), and the single-threaded
mutation of the engine object becomes explicit state passing on
`EngineState`.  Code of the repository that is not part of src (the
hashgraph module's LCA and linearization algorithms, the ObjectACL
queries, the finality store) is modelled from the specification; every
such definition carries a doc comment starting with the words Modelled
from the spec.
-/

set_option maxRecDepth 20000
set_option maxHeartbeats 2000000

namespace TsDrp

/-- Attribute values stored in a DRP or ACL object. The JavaScript
values the engine's reflective attribute iteration reaches are modelled
as numbers, strings, booleans and string lists; deepEqual on them is
structural equality. -/
inductive Val where
  | num : Int → Val
  | str : String → Val
  | boolean : Bool → Val
  | strList : List String → Val
deriving DecidableEq

/-- The two operation kinds, DrpType.DRP and DrpType.ACL of interface.ts. -/
inductive DrpType where
  | DRP : DrpType
  | ACL : DrpType
deriving DecidableEq

/-- An Operation as in the source: a drpType tag, a dotted operation
name opType, and the argument list value. -/
structure Operation where
  drpType : DrpType
  opType : String
  value : List Val
deriving DecidableEq

/-- A Vertex as in the source. The operation field is optional, matching
the protobuf type where merge must guard against an absent operation.
The signature is an opaque blob the core never interprets. -/
structure Vertex where
  hash : String
  peerId : String
  operation : Option Operation
  dependencies : List String
  timestamp : Int
  signature : String
deriving DecidableEq

/-! ## SHA-256, executable over Nat with explicit 32-bit reduction -/

/-- The 32-bit mask 2^32 - 1. -/
def mask32 : Nat := 4294967295

/-- Right rotation of a 32-bit word. -/
def rotr (b w : Nat) : Nat := ((w >>> b) ||| (w <<< (32 - b))) &&& mask32

/-- The SHA-256 big sigma 0 function. -/
def bSig0 (w : Nat) : Nat := rotr 2 w ^^^ rotr 13 w ^^^ rotr 22 w

/-- The SHA-256 big sigma 1 function. -/
def bSig1 (w : Nat) : Nat := rotr 6 w ^^^ rotr 11 w ^^^ rotr 25 w

/-- The SHA-256 small sigma 0 function. -/
def sSig0 (w : Nat) : Nat := rotr 7 w ^^^ rotr 18 w ^^^ (w >>> 3)

/-- The SHA-256 small sigma 1 function. -/
def sSig1 (w : Nat) : Nat := rotr 17 w ^^^ rotr 19 w ^^^ (w >>> 10)

/-- The SHA-256 choice function. -/
def chF (x y z : Nat) : Nat := (x &&& y) ^^^ ((x ^^^ mask32) &&& z)

/-- The SHA-256 majority function. -/
def majF (x y z : Nat) : Nat := (x &&& y) ^^^ (x &&& z) ^^^ (y &&& z)

/-- The 64 SHA-256 round constants. -/
def sha256K : List Nat :=
  [1116352408, 1899447441, 3049323471, 3921009573, 961987163, 1508970993,
   2453635748, 2870763221, 3624381080, 310598401, 607225278, 1426881987,
   1925078388, 2162078206, 2614888103, 3248222580, 3835390401, 4022224774,
   264347078, 604807628, 770255983, 1249150122, 1555081692, 1996064986,
   2554220882, 2821834349, 2952996808, 3210313671, 3336571891, 3584528711,
   113926993, 338241895, 666307205, 773529912, 1294757372, 1396182291,
   1695183700, 1986661051, 2177026350, 2456956037, 2730485921, 2820302411,
   3259730800, 3345764771, 3516065817, 3600352804, 4094571909, 275423344,
   430227734, 506948616, 659060556, 883997877, 958139571, 1322822218,
   1537002063, 1747873779, 1955562222, 2024104815, 2227730452, 2361852424,
   2428436474, 2756734187, 3204031479, 3329325298]

/-- The SHA-256 initial hash state. -/
def sha256H0 : List Nat :=
  [1779033703, 3144134277, 1013904242, 2773480762,
   1359893119, 2600822924, 528734635, 1541459225]

/-- One extension step of the message schedule: appends the next word. -/
def scheduleStep (ws : List Nat) : List Nat :=
  let n := ws.length
  ws ++ [(sSig1 (ws.getD (n - 2) 0) + ws.getD (n - 7) 0 +
          sSig0 (ws.getD (n - 15) 0) + ws.getD (n - 16) 0) % 4294967296]

/-- Iterate a function n times. -/
def iterApply (f : α → α) : Nat → α → α
  | 0, a => a
  | n + 1, a => iterApply f n (f a)

/-- The 64-word message schedule from a 16-word block. -/
def buildSchedule (w16 : List Nat) : List Nat := iterApply scheduleStep 48 w16

/-- One SHA-256 compression round on the eight-word working state. -/
def compressStep (st : List Nat) (kw : Nat × Nat) : List Nat :=
  match st with
  | [a, b, c, d, e, f, g, h] =>
    let t1 := (h + bSig1 e + chF e f g + kw.1 + kw.2) % 4294967296
    let t2 := (bSig0 a + majF a b c) % 4294967296
    [(t1 + t2) % 4294967296, a, b, c, (d + t1) % 4294967296, e, f, g]
  | other => other

/-- Compression of one 16-word block into the running hash state. -/
def compressBlock (h : List Nat) (block16 : List Nat) : List Nat :=
  let st := (sha256K.zip (buildSchedule block16)).foldl compressStep h
  (h.zip st).map (fun p => (p.1 + p.2) % 4294967296)

/-- SHA-256 padding of a byte list: 0x80, zeros to 56 mod 64, then the
bit length as eight big-endian bytes. -/
def padMessage (msg : List Nat) : List Nat :=
  let bitLen := msg.length * 8
  let r := (msg.length + 1) % 64
  let z := (120 - r) % 64
  msg ++ [0x80] ++ List.replicate z 0 ++
    (List.range 8).map (fun i => (bitLen >>> (8 * (7 - i))) &&& 255)

/-- Big-endian grouping of bytes into 32-bit words. -/
def bytesToWords : List Nat → List Nat
  | b0 :: b1 :: b2 :: b3 :: t =>
      (((b0 * 256 + b1) * 256 + b2) * 256 + b3) :: bytesToWords t
  | _ => []

/-- Split a word list into chunks of 16; a final fragment shorter than
16 words is dropped (the padded input is always a multiple of 16). -/
def chunks16 : List Nat → List (List Nat)
  | w0 :: w1 :: w2 :: w3 :: w4 :: w5 :: w6 :: w7 ::
    w8 :: w9 :: w10 :: w11 :: w12 :: w13 :: w14 :: w15 :: t =>
      [w0, w1, w2, w3, w4, w5, w6, w7, w8, w9, w10, w11, w12, w13, w14, w15] ::
        chunks16 t
  | _ => []

/-- One lowercase hexadecimal digit. -/
def hexDigit (n : Nat) : Char := "0123456789abcdef".toList.getD n '0'

/-- Lowercase hexadecimal rendering of a 32-bit word, eight digits. -/
def word32hex (w : Nat) : String :=
  String.mk ((List.range 8).map (fun i => hexDigit ((w >>> (4 * (7 - i))) &&& 15)))

/-- SHA-256 digest of a byte list, lowercase hexadecimal. -/
def sha256hexBytes (msg : List Nat) : String :=
  let blocks := chunks16 (bytesToWords (padMessage msg))
  String.join ((blocks.foldl compressBlock sha256H0).map word32hex)

/-- UTF-8 bytes of a string; the engine only hashes ASCII strings, for
which the bytes are the character codes. -/
def strToBytes (s : String) : List Nat := s.toList.map Char.toNat

/-- SHA-256 digest of a string, lowercase hexadecimal, as
crypto.createHash("sha256").update(s).digest("hex") yields it. -/
def sha256hex (s : String) : String := sha256hexBytes (strToBytes s)

/-! ## The hash preimage and computeHash -/

/-- Escaping of one character inside a JSON string literal, as
JSON.stringify performs it for the ASCII characters the engine feeds it
(no control characters occur in peer ids, hashes or operation names). -/
def escapeChar (c : Char) : String :=
  if c = '"' then "\\\"" else if c = '\\' then "\\\\" else String.singleton c

/-- Escaping of a whole string body for JSON.stringify. -/
def escapeString (s : String) : String :=
  String.join (s.toList.map escapeChar)

/-- A JSON string literal: quotes around the escaped body. -/
def jsonQuote (s : String) : String :=
  "\"" ++ escapeString s ++ "\""

/-- Modelled from the spec: the DrpType enumeration lives in the types
package outside src; the spec only fixes its two members DRP and ACL,
which serialize as the strings DRP and ACL. -/
def drpTypeString : DrpType → String
  | .DRP => "DRP"
  | .ACL => "ACL"

/-- Comma-separated list of quoted strings, the JSON array body for a
list of strings. -/
def strListSerial : List String → String
  | [] => ""
  | [d] => jsonQuote d
  | d :: e :: t => jsonQuote d ++ "," ++ strListSerial (e :: t)

/-- JSON serialization of one attribute value. -/
def valSerial : Val → String
  | .num n => toString n
  | .str s => jsonQuote s
  | .boolean b => if b then "true" else "false"
  | .strList l => "[" ++ strListSerial l ++ "]"

/-- Comma-separated serialization of an argument list. -/
def valsSerial : List Val → String
  | [] => ""
  | [v] => valSerial v
  | v :: w :: t => valSerial v ++ "," ++ valsSerial (w :: t)

/-- JSON.stringify output for an Operation object literal, member order
drpType, opType, value as the object literal in callFn writes it. -/
def operationSerial (o : Operation) : String :=
  "\x7b" ++ jsonQuote "drpType" ++ ":" ++ jsonQuote (drpTypeString o.drpType) ++
  "," ++ jsonQuote "opType" ++ ":" ++ jsonQuote o.opType ++
  "," ++ jsonQuote "value" ++ ":" ++ "[" ++ valsSerial o.value ++ "]" ++ "\x7d"

/-- JSON.stringify output for the hash preimage record of the source,
member order operation, deps, peerId, timestamp; an undefined operation
is omitted entirely, as JSON.stringify omits undefined members. -/
def preimageSerial (peerId : String) (op : Option Operation)
    (deps : List String) (ts : Int) : String :=
  "\x7b" ++
  (match op with
   | some o => jsonQuote "operation" ++ ":" ++ operationSerial o ++ ","
   | none => "") ++
  jsonQuote "deps" ++ ":" ++ "[" ++ strListSerial deps ++ "]" ++ "," ++
  jsonQuote "peerId" ++ ":" ++ jsonQuote peerId ++ "," ++
  jsonQuote "timestamp" ++ ":" ++ toString ts ++ "\x7d"

/-- computeHash of the source: SHA-256, lowercase hex, of the
JSON.stringify serialization of the record with members operation,
deps, peerId, timestamp. -/
def computeHash (peerId : String) (op : Option Operation)
    (deps : List String) (ts : Int) : String :=
  sha256hex (preimageSerial peerId op deps ts)

/-! ## A generic JSON model, used to state what JSON.stringify and a
sorted-key canonical serialization produce -/

/-- JSON values. Object members keep their insertion order, exactly as
JavaScript objects do. -/
inductive Json where
  | str : String → Json
  | num : Int → Json
  | boolean : Bool → Json
  | arr : List Json → Json
  | obj : List (String × Json) → Json

mutual

/-- The serialization JSON.stringify produces: no insignificant
whitespace, object members in insertion order. -/
def Json.stringify : Json → String
  | .str s => jsonQuote s
  | .num n => toString n
  | .boolean b => if b then "true" else "false"
  | .arr xs => "[" ++ Json.stringifyList xs ++ "]"
  | .obj kvs => "\x7b" ++ Json.stringifyMembers kvs ++ "\x7d"

/-- Comma-separated serialization of array elements. -/
def Json.stringifyList : List Json → String
  | [] => ""
  | [x] => Json.stringify x
  | x :: y :: t => Json.stringify x ++ "," ++ Json.stringifyList (y :: t)

/-- Comma-separated serialization of object members, insertion order. -/
def Json.stringifyMembers : List (String × Json) → String
  | [] => ""
  | [(k, v)] => jsonQuote k ++ ":" ++ Json.stringify v
  | (k, v) :: m :: t =>
      jsonQuote k ++ ":" ++ Json.stringify v ++ "," ++ Json.stringifyMembers (m :: t)

end

/-- Ordered insertion for sorting object keys lexicographically. -/
def insertByKey (p : String × Json) : List (String × Json) → List (String × Json)
  | [] => [p]
  | q :: t => if p.1 ≤ q.1 then p :: q :: t else q :: insertByKey p t

/-- Insertion sort of object members by key, lexicographic order. -/
def sortByKey : List (String × Json) → List (String × Json)
  | [] => []
  | p :: t => insertByKey p (sortByKey t)

/-- The serialization the claim describes for the hash preimage: the
top-level record serialized with its keys in sorted order. -/
def sortedKeyStringify (j : Json) : String :=
  match j with
  | .obj kvs => Json.stringify (.obj (sortByKey kvs))
  | x => Json.stringify x

/-- JSON view of an attribute value. -/
def valJson : Val → Json
  | .num n => .num n
  | .str s => .str s
  | .boolean b => .boolean b
  | .strList l => .arr (l.map Json.str)

/-- JSON view of an Operation object literal, member order drpType,
opType, value. -/
def operationJson (o : Operation) : Json :=
  .obj [("drpType", .str (drpTypeString o.drpType)),
        ("opType", .str o.opType),
        ("value", .arr (o.value.map valJson))]

/-- The object literal serialized by computeHash in the source, member
order operation, deps, peerId, timestamp; an undefined operation is
omitted. -/
def preimageJson (peerId : String) (op : Option Operation)
    (deps : List String) (ts : Int) : Json :=
  .obj ((match op with
         | some o => [("operation", operationJson o)]
         | none => []) ++
        [("deps", .arr (deps.map Json.str)),
         ("peerId", .str peerId),
         ("timestamp", .num ts)])

/-- The hash the claim describes: SHA-256, lowercase hex, of the
sorted-key serialization of the preimage record. -/
def sortedKeyHash (peerId : String) (op : Option Operation)
    (deps : List String) (ts : Int) : String :=
  sha256hex (sortedKeyStringify (preimageJson peerId op deps ts))

/-- The sorted-key serialization of the preimage record written out:
key order deps, operation, peerId, timestamp. -/
def sortedPreimageSerial (peerId : String) (o : Operation)
    (deps : List String) (ts : Int) : String :=
  "\x7b" ++
  jsonQuote "deps" ++ ":" ++ "[" ++ strListSerial deps ++ "]" ++ "," ++
  jsonQuote "operation" ++ ":" ++ operationSerial o ++ "," ++
  jsonQuote "peerId" ++ ":" ++ jsonQuote peerId ++ "," ++
  jsonQuote "timestamp" ++ ":" ++ toString ts ++ "\x7d"

/-- A concrete operation for the C1 counterexample. -/
def cxOp : Operation := ⟨DrpType.DRP, "add", [Val.num 1]⟩

/-! ## The engine state

JavaScript objects holding data attributes are association lists keyed
by attribute name; the methods of the user DRP and of the ObjectACL,
being embedder code outside the engine, enter the model as method
tables mapping an opType to an implementation. -/

/-- Attribute maps: the own enumerable data attributes of a JavaScript
object, in insertion order, keys unique. -/
abbrev AttrMap := List (String × Val)

/-- Lookup of an attribute by name. -/
def lookupA : List (String × α) → String → Option α
  | [], _ => none
  | (k2, v2) :: t, k => if k2 = k then some v2 else lookupA t k

/-- Assignment of an attribute: replaces the existing entry in place, or
appends a new one, as JavaScript property assignment and Map.set do. -/
def setA : List (String × α) → String → α → List (String × α)
  | [], k, v => [(k, v)]
  | (k2, v2) :: t, k, v => if k2 = k then (k, v) :: t else (k2, v2) :: setA t k v

/-- Sequential assignment of all entries of upd onto base, in order:
the for-of loops that copy a cached DRPState onto a clone, and
Object.assign. -/
def assign (base upd : AttrMap) : AttrMap :=
  upd.foldl (fun acc kv => setA acc kv.1 kv.2) base

/-- Sequential assignment restricted to keys already present on base:
the state write-back of updateDRPState and updateObjectACLState, which
only assigns entries whose key exists on the live object. -/
def assignExisting (base upd : AttrMap) : AttrMap :=
  upd.foldl (fun acc kv => if (lookupA acc kv.1).isSome then setA acc kv.1 kv.2 else acc) base

/-- Membership of a string in an optional string-list value. -/
def valHasStr (ov : Option Val) (p : String) : Bool :=
  match ov with
  | some (.strList l) => l.contains p
  | _ => false

/-- Whether an ACL snapshot is permissionless. -/
def aclPermissionless (acl : AttrMap) : Bool :=
  match lookupA acl "permissionless" with
  | some (.boolean b) => b
  | _ => false

/-- Modelled from the spec: ObjectACL.query_isWriter lives in the acl
module outside src. Per the spec a permissionless ACL admits writes
from any peer, and otherwise write permission is membership in the
admins or writers set of the ACL snapshot. -/
def aclIsWriter (acl : AttrMap) (p : String) : Bool :=
  aclPermissionless acl || valHasStr (lookupA acl "admins") p ||
    valHasStr (lookupA acl "writers") p

/-- Modelled from the spec: ObjectACL.query_getFinalitySigners lives
outside src; per the source comment the signer set equals the writer
set, here the admins and writers of the ACL snapshot. -/
def finalitySigners (acl : AttrMap) : List String :=
  (match lookupA acl "admins" with | some (.strList l) => l | _ => []) ++
  (match lookupA acl "writers" with | some (.strList l) => l | _ => [])

/-- The full engine state of one DRPObject: the fields of the class plus
the wall clock and, as explicit parameters, the embedder-supplied method
tables and the hashgraph algorithms that live outside src. -/
structure EngineState where
  peerId : String
  hasDrp : Bool
  graph : List Vertex
  frontier : List String
  drpStates : List (String × AttrMap)
  aclStates : List (String × AttrMap)
  originalDRP : AttrMap
  originalACL : AttrMap
  liveDrp : AttrMap
  liveAcl : AttrMap
  vertices : List Vertex
  finality : List (String × List String)
  notifications : List (String × List Vertex)
  now : Int
  drpMethods : String → Option (AttrMap → List Val → Except String (AttrMap × Option Val))
  aclMethods : String → Option (AttrMap → List Val → Except String (AttrMap × Option Val))
  lcaMulti : List Vertex → List String → String × List Operation

/-- Modelled from the spec: the root vertex's fixed engine-defined hash. -/
def rootHash : String := "root"

/-- Ordered insertion of a string. -/
def insertStr (s : String) : List String → List String
  | [] => [s]
  | x :: t => if s ≤ x then s :: x :: t else x :: insertStr s t

/-- Insertion sort of strings, lexicographic. -/
def sortStrings : List String → List String
  | [] => []
  | x :: t => insertStr x (sortStrings t)

/-- Modelled from the spec: hashGraph.getFrontier returns the frontier
sorted by hash for determinism. -/
def getFrontier (s : EngineState) : List String := sortStrings s.frontier

/-- Lookup of a vertex by hash, hashGraph.vertices.get. -/
def graphLookup (s : EngineState) (h : String) : Option Vertex :=
  s.graph.find? (fun v => v.hash = h)

/-- Presence test, hashGraph.vertices.has. -/
def graphHas (s : EngineState) (h : String) : Bool :=
  (graphLookup s h).isSome

/-- Modelled from the spec: hashGraph.addVertex and addToFrontier insert
the vertex, remove its dependencies from the frontier and add it to the
frontier. -/
def addVertexS (s : EngineState) (v : Vertex) : EngineState :=
  { s with graph := s.graph ++ [v],
           frontier := s.frontier.filter (fun h => !v.dependencies.contains h) ++ [v.hash] }

/-- computeLCA of the source: a single dependency is its own LCA with no
operations to replay; multiple dependencies delegate to the hashgraph
algorithms, which live outside src and enter the model through the
lcaMulti parameter. -/
def computeLCA (s : EngineState) (deps : List String) : String × List Operation :=
  match deps with
  | [d] => (d, [])
  | _ => s.lcaMulti s.graph deps

/-- applyOperation of the source: resolve the method named by opType in
the method table and invoke it; a missing or non-function target and an
exception inside the method both surface as errors. The dotted-path
traversal of the source is collapsed into a table lookup keyed by the
full opType, the nested object layout being embedder-defined. -/
def applyOperationM
    (mt : String → Option (AttrMap → List Val → Except String (AttrMap × Option Val)))
    (attrs : AttrMap) (op : Operation) : Except String (AttrMap × Option Val) :=
  match mt op.opType with
  | none => .error (op.opType ++ " is not a function")
  | some f =>
    match f attrs op.value with
    | .ok r => .ok r
    | .error e => .error ("Error while applying operation " ++ op.opType ++ ": " ++ e)

/-- Replay of linearized operations filtered to one kind, each applied
for its state effect only. -/
def replayOps
    (mt : String → Option (AttrMap → List Val → Except String (AttrMap × Option Val)))
    (kind : DrpType) (attrs : AttrMap) : List Operation → Except String AttrMap
  | [] => .ok attrs
  | op :: t =>
    if op.drpType = kind then
      match applyOperationM mt attrs op with
      | .error e => .error e
      | .ok r => replayOps mt kind r.1 t
    else replayOps mt kind attrs t

/-- computeDRP of the source: reconstruct the DRP at a dependency set by
cloning the original, loading the cached state at the LCA, replaying the
linearized DRP operations, and finally applying the optional vertex
operation when it is DRP-typed. -/
def computeDRP (s : EngineState) (deps : List String)
    (pre : Option (String × List Operation)) (vop : Option Operation) :
    Except String AttrMap :=
  if s.hasDrp = false then .error "DRP is undefined" else
  let lp := pre.getD (computeLCA s deps)
  match lookupA s.drpStates lp.1 with
  | none => .error "State is undefined"
  | some st =>
    match replayOps s.drpMethods DrpType.DRP (assign s.originalDRP st) lp.2 with
    | .error e => .error e
    | .ok drp2 =>
      match vop with
      | some op =>
        if op.drpType = DrpType.DRP then
          match applyOperationM s.drpMethods drp2 op with
          | .error e => .error e
          | .ok r => .ok r.1
        else .ok drp2
      | none => .ok drp2

/-- computeObjectACL of the source, symmetric to computeDRP against the
ACL track; the ACL always exists, so there is no absence guard. -/
def computeObjectACL (s : EngineState) (deps : List String)
    (pre : Option (String × List Operation)) (vop : Option Operation) :
    Except String AttrMap :=
  let lp := pre.getD (computeLCA s deps)
  match lookupA s.aclStates lp.1 with
  | none => .error "State is undefined"
  | some st =>
    match replayOps s.aclMethods DrpType.ACL (assign s.originalACL st) lp.2 with
    | .error e => .error e
    | .ok acl2 =>
      match vop with
      | some op =>
        if op.drpType = DrpType.ACL then
          match applyOperationM s.aclMethods acl2 op with
          | .error e => .error e
          | .ok r => .ok r.1
        else .ok acl2
      | none => .ok acl2

/-- getDRPState of the source maps the non-function own attributes of a
snapshot to a state entry list; on attribute maps this is the identity,
kept as a named definition to mirror the source call sites. -/
def getDRPStateOf (attrs : AttrMap) : AttrMap := attrs

/-- checkWriterPermission of the source: with no DRP registered it asks
the current live ACL; with a DRP it asks the ACL reconstructed at the
dependency set. -/
def checkWriterPermission (s : EngineState) (peerId : String)
    (deps : List String) : Except String Bool :=
  if s.hasDrp = false then .ok (aclIsWriter s.liveAcl peerId)
  else
    match computeObjectACL s deps none none with
    | .error e => .error e
    | .ok acl => .ok (aclIsWriter acl peerId)

/-- The dependency loop of validateVertex: each dependency must exist
and must not have a timestamp above the vertex's. -/
def checkDeps (s : EngineState) (vts : Int) : List String → Except String Unit
  | [] => .ok ()
  | d :: t =>
    match graphLookup s d with
    | none => .error "invalid dependency"
    | some dv =>
      if dv.timestamp > vts then .error "invalid timestamp"
      else checkDeps s vts t

/-- validateVertex of the source: hash recomputation, non-empty
dependencies, dependency existence and timestamp monotonicity, no
future timestamp, then the writer permission check. -/
def validateVertex (s : EngineState) (v : Vertex) : Except String Unit :=
  if v.hash ≠ computeHash v.peerId v.operation v.dependencies v.timestamp then
    .error "Invalid hash"
  else if v.dependencies.isEmpty then .error "no dependencies"
  else
    match checkDeps s v.timestamp v.dependencies with
    | .error e => .error e
    | .ok _ =>
      if v.timestamp > s.now then .error "invalid timestamp"
      else
        match checkWriterPermission s v.peerId v.dependencies with
        | .error e => .error e
        | .ok true => .ok ()
        | .ok false => .error "does not have write permission"

/-- Modelled from the spec: FinalityStore.initializeState records, for a
vertex hash, the signer set read from the ACL reconstructed from the
cached ACL state at that hash; with no cached state nothing happens
(mirroring the fetchedState guard of the source). -/
def initFinality (s : EngineState) (h : String) : EngineState :=
  match lookupA s.aclStates h with
  | none => s
  | some st =>
      { s with finality := setA s.finality h (finalitySigners (assign s.originalACL st)) }

/-- Notification of all subscribers: the model records the delivered
event, origin and vertex list. -/
def notifyS (s : EngineState) (origin : String) (vs : List Vertex) : EngineState :=
  { s with notifications := s.notifications ++ [(origin, vs)] }

/-- The method table for one operation kind. -/
def methodsFor (s : EngineState) (ty : DrpType) :
    String → Option (AttrMap → List Val → Except String (AttrMap × Option Val)) :=
  if ty = DrpType.ACL then s.aclMethods else s.drpMethods

/-- The operation object literal callFn builds. -/
def mkOperation (ty : DrpType) (fn : String) (args : List Val) : Operation :=
  { drpType := ty, opType := fn, value := args }

/-- The pre-image computation of callFn: the object of the call's kind
reconstructed at the current frontier. -/
def callFnPre (s : EngineState) (ty : DrpType) : Except String AttrMap :=
  if ty = DrpType.ACL then computeObjectACL s (getFrontier s) none none
  else computeDRP s (getFrontier s) none none

/-- The change detection of callFn: some key of the pre-operation object
maps to a value that is not deep-equal on the post-operation clone. -/
def codeChanged (pre post : AttrMap) : Bool :=
  (pre.map Prod.fst).any (fun k => decide (lookupA post k ≠ lookupA pre k))

/-- The change predicate as the claim words it: some attribute of the
post-operation clone is not deep-equal to the corresponding attribute of
the pre-operation object. -/
def claimChanged (pre post : AttrMap) : Bool :=
  (post.map Prod.fst).any (fun k => decide (lookupA post k ≠ lookupA pre k))

/-- The vertex callFn creates: dependencies are the current frontier,
the timestamp is the wall clock, the hash is computed over them. -/
def mkVertexFor (s : EngineState) (fn : String) (args : List Val)
    (ty : DrpType) : Vertex :=
  { hash := computeHash s.peerId (some (mkOperation ty fn args)) (getFrontier s) s.now,
    peerId := s.peerId,
    operation := some (mkOperation ty fn args),
    dependencies := getFrontier s,
    timestamp := s.now,
    signature := "" }

/-- The tail of callFn shared by both kinds: finality initialization,
vertices push, subscriber notification, and the rebase of the live
object onto the post-operation clone. -/
def callFnFinish (s3 : EngineState) (v : Vertex) (ty : DrpType)
    (post : AttrMap) (result : Option Val) :
    EngineState × Except String (Option Val) :=
  let s4 := initFinality s3 v.hash
  let s5 := { s4 with vertices := s4.vertices ++ [v] }
  let s6 := notifyS s5 "callFn" [v]
  let s7 :=
    if ty = DrpType.ACL then { s6 with liveAcl := assign s6.liveAcl post }
    else { s6 with liveDrp := assign s6.liveDrp post }
  (s7, .ok result)

/-- callFn of the source, the apply-local pipeline: reconstruct the
pre-image at the frontier, apply the operation to a clone (an exception
is caught and surfaced as an undefined result with no state change),
detect a state change over the pre-image keys, and if changed create the
vertex, add it to the frontier, write both state caches, initialize
finality, push, notify and rebase. A failure while writing the caches
propagates, leaving the mutations made so far in place, exactly as an
exception thrown halfway through the method would on the JavaScript
object. -/
def callFn (s : EngineState) (fn : String) (args : List Val) (ty : DrpType) :
    EngineState × Except String (Option Val) :=
  match callFnPre s ty with
  | .error e => (s, .error e)
  | .ok pre =>
    match applyOperationM (methodsFor s ty) pre (mkOperation ty fn args) with
    | .error _ => (s, .ok none)
    | .ok (post, result) =>
      if codeChanged pre post = false then (s, .ok result)
      else
        let v := mkVertexFor s fn args ty
        let s1 := addVertexS s v
        if ty = DrpType.DRP then
          match computeObjectACL s1 v.dependencies none (some (mkOperation ty fn args)) with
          | .error e => (s1, .error e)
          | .ok aclSt =>
            let s2 := { s1 with aclStates := setA s1.aclStates v.hash aclSt }
            let s3 := { s2 with drpStates := setA s2.drpStates v.hash (getDRPStateOf post) }
            callFnFinish s3 v ty post result
        else
          let s2 := { s1 with aclStates := setA s1.aclStates v.hash (getDRPStateOf post) }
          match computeDRP s2 v.dependencies none (some (mkOperation ty fn args)) with
          | .error e => (s2, .error e)
          | .ok drpSt =>
            let s3 := { s2 with drpStates := setA s2.drpStates v.hash drpSt }
            callFnFinish s3 v ty post result

/-- One iteration of the mergeWithDrp loop: skip a vertex without an
operation or already present; validate; compute and write both caches;
admit; initialize finality. A failure anywhere in the try block yields
the vertex hash as missing, keeping whatever mutations preceded the
failure, and processing continues. -/
def mergeVertexDrp (s : EngineState) (v : Vertex) :
    EngineState × Option String × Option Vertex :=
  match v.operation with
  | none => (s, none, none)
  | some op =>
    if graphHas s v.hash then (s, none, none)
    else
      match validateVertex s v with
      | .error _ => (s, some v.hash, none)
      | .ok _ =>
        let pre := computeLCA s v.dependencies
        if op.drpType = DrpType.DRP then
          match computeDRP s v.dependencies (some pre) (some op) with
          | .error _ => (s, some v.hash, none)
          | .ok drp =>
            match computeObjectACL s v.dependencies (some pre) (some op) with
            | .error _ => (s, some v.hash, none)
            | .ok aclSt =>
              let s1 := { s with aclStates := setA s.aclStates v.hash aclSt }
              let s2 := { s1 with drpStates := setA s1.drpStates v.hash (getDRPStateOf drp) }
              let s3 := addVertexS s2 v
              (initFinality s3 v.hash, none, some v)
        else
          match computeObjectACL s v.dependencies (some pre) (some op) with
          | .error _ => (s, some v.hash, none)
          | .ok acl =>
            let s1 := { s with aclStates := setA s.aclStates v.hash (getDRPStateOf acl) }
            match computeDRP s1 v.dependencies (some pre) (some op) with
            | .error _ => (s1, some v.hash, none)
            | .ok drpSt =>
              let s2 := { s1 with drpStates := setA s1.drpStates v.hash drpSt }
              let s3 := addVertexS s2 v
              (initFinality s3 v.hash, none, some v)

/-- The mergeWithDrp loop over the batch, collecting missing hashes and
newly admitted vertices in processing order. -/
def mergeLoopDrp : EngineState → List Vertex → EngineState × List String × List Vertex
  | s, [] => (s, [], [])
  | s, v :: t =>
    match mergeVertexDrp s v with
    | (s1, mh, nv) =>
      match mergeLoopDrp s1 t with
      | (s2, m, ns) => (s2, mh.toList ++ m, nv.toList ++ ns)

/-- Modelled from the spec: hashGraph.getAllVertices returns every
vertex of the graph; the model keeps them in admission order. -/
def getAllVertices (g : List Vertex) : List Vertex := g

/-- updateObjectACLState of the source: recompute the ACL state at the
frontier and assign it onto the live ACL, existing keys only. -/
def updateObjectACLState (s : EngineState) : Except String EngineState :=
  match computeObjectACL s (getFrontier s) none none with
  | .error e => .error e
  | .ok st => .ok { s with liveAcl := assignExisting s.liveAcl (getDRPStateOf st) }

/-- updateDRPState of the source, symmetric on the DRP track. -/
def updateDRPState (s : EngineState) : Except String EngineState :=
  if s.hasDrp = false then .error "DRP or hashgraph is undefined" else
  match computeDRP s (getFrontier s) none none with
  | .error e => .error e
  | .ok st => .ok { s with liveDrp := assignExisting s.liveDrp (getDRPStateOf st) }

/-- mergeWithDrp of the source: run the loop, refresh the vertices list,
refresh both live references at the new frontier, notify subscribers
with the newly admitted vertices, and return whether the missing list is
empty together with the missing list. -/
def mergeWithDrp (s : EngineState) (vs : List Vertex) :
    EngineState × Except String (Bool × List String) :=
  match mergeLoopDrp s vs with
  | (s1, missing, newV) =>
    let s2 := { s1 with vertices := getAllVertices s1.graph }
    match updateObjectACLState s2 with
    | .error e => (s2, .error e)
    | .ok s3 =>
      match updateDRPState s3 with
      | .error e => (s3, .error e)
      | .ok s4 => (notifyS s4 "merge" newV, .ok (missing.isEmpty, missing))

/-- One iteration of the mergeWithoutDrp loop: skip, validate, admit;
no cache writes, no finality, no notification. -/
def mergeVertexNoDrp (s : EngineState) (v : Vertex) :
    EngineState × Option String :=
  match v.operation with
  | none => (s, none)
  | some _ =>
    if graphHas s v.hash then (s, none)
    else
      match validateVertex s v with
      | .error _ => (s, some v.hash)
      | .ok _ => (addVertexS s v, none)

/-- The mergeWithoutDrp loop over the batch. -/
def mergeLoopNoDrp : EngineState → List Vertex → EngineState × List String
  | s, [] => (s, [])
  | s, v :: t =>
    match mergeVertexNoDrp s v with
    | (s1, mh) =>
      match mergeLoopNoDrp s1 t with
      | (s2, m) => (s2, mh.toList ++ m)

/-- mergeWithoutDrp of the source: only the loop, then the return pair. -/
def mergeWithoutDrp (s : EngineState) (vs : List Vertex) :
    EngineState × (Bool × List String) :=
  match mergeLoopNoDrp s vs with
  | (s1, missing) => (s1, (missing.isEmpty, missing))

/-- merge of the source: dispatch on whether a user DRP is registered. -/
def merge (s : EngineState) (vs : List Vertex) :
    EngineState × Except String (Bool × List String) :=
  if s.hasDrp = false then
    match mergeWithoutDrp s vs with
    | (s1, r) => (s1, .ok r)
  else mergeWithDrp s vs

/-! ## The constructor, for the construction claim -/

/-- An opaque public credential. -/
structure DRPPublicCredential where
  key : String
deriving DecidableEq

/-- The arguments the constructor hands to new ObjectACL. -/
structure ObjectACLInit where
  admins : List (String × DRPPublicCredential)
  permissionless : Bool
deriving DecidableEq

/-- The constructor options relevant to the construction claim. -/
structure CtorOptions where
  peerId : String
  publicCredential : Option DRPPublicCredential
  acl : Option ObjectACLInit

/-- What the constructor determines for the construction claim: the ACL
the object will use. -/
structure CtorResult where
  peerId : String
  objAcl : ObjectACLInit
deriving DecidableEq

/-- The constructor guard and ACL selection of the source: throw when
neither acl nor publicCredential is supplied; otherwise use the supplied
ACL or default to a permissionless ObjectACL whose sole admin is the
creator with their public credential. -/
def constructDRPObject (o : CtorOptions) : Except String CtorResult :=
  if o.acl.isNone && o.publicCredential.isNone then
    .error "Either publicCredential or acl must be provided to create a DRPObject"
  else
    .ok { peerId := o.peerId,
          objAcl := o.acl.getD
            { admins := (match o.publicCredential with
                         | some c => [(o.peerId, c)]
                         | none => []),
              permissionless := true } }

/-- Decidable equality on Except, for evaluating concrete results. -/
instance {ε α : Type} [DecidableEq ε] [DecidableEq α] : DecidableEq (Except ε α) :=
  fun a b =>
    match a, b with
    | .error e1, .error e2 =>
        if h : e1 = e2 then .isTrue (by rw [h]) else .isFalse (by simp [h])
    | .ok a1, .ok a2 =>
        if h : a1 = a2 then .isTrue (by rw [h]) else .isFalse (by simp [h])
    | .error _, .ok _ => .isFalse nofun
    | .ok _, .error _ => .isFalse nofun

/-! ## Concrete test fixtures for witnesses and counterexamples -/

/-- The root vertex: empty dependencies, sentinel operation. -/
def rootV : Vertex :=
  { hash := rootHash, peerId := "", operation := none, dependencies := [],
    timestamp := 0, signature := "" }

/-- An empty method table. -/
def noMethods : String → Option (AttrMap → List Val → Except String (AttrMap × Option Val)) :=
  fun _ => none

/-- A small method table: a throwing method, an assigning method, a
method adding a fresh attribute, and a pure no-op method. -/
def testMethods : String → Option (AttrMap → List Val → Except String (AttrMap × Option Val)) :=
  fun f =>
    if f = "boom" then some (fun _ _ => .error "kaboom")
    else if f = "inc" then some (fun attrs _ => .ok (setA attrs "x" (.num 1), some (.num 1)))
    else if f = "addy" then some (fun attrs _ => .ok (attrs ++ [("y", .num 7)], some (.num 7)))
    else if f = "noop" then some (fun attrs _ => .ok (attrs, some (.num 0)))
    else none

/-- A trivial instantiation of the hashgraph algorithms, never invoked
in the single-dependency scenarios below. -/
def trivialLca : List Vertex → List String → String × List Operation :=
  fun _ _ => (rootHash, [])

/-- A concrete engine state with a user DRP registered: the root is
admitted, both caches hold the root states, the ACL is permissionless. -/
def baseS : EngineState :=
  { peerId := "p1", hasDrp := true,
    graph := [rootV], frontier := [rootHash],
    drpStates := [(rootHash, [])], aclStates := [(rootHash, [])],
    originalDRP := [("x", Val.num 0)],
    originalACL := [("permissionless", Val.boolean true)],
    liveDrp := [("x", Val.num 0)],
    liveAcl := [("permissionless", Val.boolean true)],
    vertices := [rootV], finality := [], notifications := [], now := 100,
    drpMethods := testMethods, aclMethods := noMethods,
    lcaMulti := trivialLca }

/-- A concrete engine state in ACL-only mode: no user DRP registered,
the live ACL permissionless, but the cached ACL state at hash h not
permissionless. -/
def noDrpS : EngineState :=
  { peerId := "p1", hasDrp := false,
    graph := [rootV], frontier := [rootHash],
    drpStates := [(rootHash, [])],
    aclStates := [(rootHash, []), ("h", [("permissionless", Val.boolean false)])],
    originalDRP := [],
    originalACL := [("permissionless", Val.boolean true)],
    liveDrp := [],
    liveAcl := [("permissionless", Val.boolean true)],
    vertices := [rootV], finality := [], notifications := [], now := 100,
    drpMethods := noMethods, aclMethods := noMethods,
    lcaMulti := trivialLca }

/-- An ACL method table with one mutating call: deny flips the
permissionless flag off. -/
def aclMethodsCx : String → Option (AttrMap → List Val → Except String (AttrMap × Option Val)) :=
  fun f =>
    if f = "deny" then
      some (fun attrs _ =>
        .ok (setA attrs "permissionless" (.boolean false), some (.boolean false)))
    else none

/-- The ACL-only state with the mutating ACL method registered. -/
def aclOnlyS : EngineState := { noDrpS with aclMethods := aclMethodsCx }

/-- The pre-image of the C4 counterexample call. -/
def preA : AttrMap := [("x", Val.num 0)]

/-- The post clone of the C4 counterexample call: a fresh attribute y
was added, no pre-image key changed. -/
def postA : AttrMap := [("x", Val.num 0), ("y", Val.num 7)]

/-! ## Claim C10: the ACL-only merge path touches only the graph -/

/-- Equality of everything the ACL-only merge path must leave alone:
both caches, finality, both live references, notifications, the vertices
list, and the mode and clock fields. -/
def frameNoDrp (a b : EngineState) : Prop :=
  a.drpStates = b.drpStates ∧ a.aclStates = b.aclStates ∧
  a.finality = b.finality ∧ a.liveAcl = b.liveAcl ∧ a.liveDrp = b.liveDrp ∧
  a.notifications = b.notifications ∧ a.vertices = b.vertices ∧
  a.hasDrp = b.hasDrp ∧ a.now = b.now

/-- A valid vertex on the root, used by several witnesses. -/
def goodV : Vertex :=
  { hash := computeHash "p1" (some (mkOperation DrpType.DRP "inc" [])) [rootHash] 50,
    peerId := "p1",
    operation := some (mkOperation DrpType.DRP "inc" []),
    dependencies := [rootHash],
    timestamp := 50,
    signature := "" }

/-! ## Claim C3: merge collects per-vertex failures into missing -/

/-- The hashes of exactly the vertices whose try block fails during the
ACL-only merge loop, in processing order. -/
def mergeFailuresNoDrp : EngineState → List Vertex → List String
  | _, [] => []
  | s, v :: t =>
    match mergeVertexNoDrp s v with
    | (s1, some h2) => h2 :: mergeFailuresNoDrp s1 t
    | (s1, none) => mergeFailuresNoDrp s1 t

/-- The hashes of exactly the vertices whose try block fails during the
with-DRP merge loop, in processing order. -/
def mergeFailuresDrp : EngineState → List Vertex → List String
  | _, [] => []
  | s, v :: t =>
    match mergeVertexDrp s v with
    | (s1, some h2, _) => h2 :: mergeFailuresDrp s1 t
    | (s1, none, _) => mergeFailuresDrp s1 t

/-- A vertex whose hash was tampered with: validation must fail. -/
def badV : Vertex :=
  { hash := "bogus", peerId := "p1",
    operation := some (mkOperation DrpType.DRP "inc" []),
    dependencies := [rootHash], timestamp := 5, signature := "" }

/-! ## Claim C7: admitted vertices have entries in both state caches -/

/-- All vertices of cur's graph that are not in s0's graph have entries
in both of cur's state caches. -/
def cachedP (s0 cur : EngineState) : Prop :=
  ∀ v, v ∈ cur.graph → v ∉ s0.graph →
    (lookupA cur.drpStates v.hash).isSome = true ∧
    (lookupA cur.aclStates v.hash).isSome = true

/-! ## Claim C8: merging the same batch twice -/

/-- The last value a state-entry list assigns to a key, if any. -/
def lastAssign (n : AttrMap) (k : String) : Option Val :=
  match n with
  | [] => none
  | (k2, v) :: t =>
    match lastAssign t k with
    | some w => some w
    | none => if k2 = k then some v else none

def lateV : Vertex :=
  { hash := computeHash "p1" (some (mkOperation DrpType.DRP "inc" [])) [goodV.hash] 60,
    peerId := "p1",
    operation := some (mkOperation DrpType.DRP "inc" []),
    dependencies := [goodV.hash],
    timestamp := 60,
    signature := "" }

/-- Sanity check against the FIPS 180 test vector for the message abc. -/
theorem sha256hex_abc :
    sha256hex "abc" =
      "ba7816bf8f01cfea414140de5dae2223b00361a396177a9cb410ff61f20015ad" := by
  decide

/-! ## C1 theorems -/

/-- Associativity of string concatenation. -/
theorem strAppendAssoc (a b c : String) : a ++ b ++ c = a ++ (b ++ c) :=
  String.ext (by simp [String.data_append, List.append_assoc])

/-- The empty string is a right identity for concatenation. -/
theorem strAppendEmpty (a : String) : a ++ "" = a :=
  String.ext (by simp [String.data_append])

/-- The empty string is a left identity for concatenation. -/
theorem strEmptyAppend (a : String) : "" ++ a = a :=
  String.ext (by simp [String.data_append])

/-- Unfolding of stringify at an object node. -/
theorem stringify_obj (kvs : List (String × Json)) :
    Json.stringify (.obj kvs) = "\x7b" ++ Json.stringifyMembers kvs ++ "\x7d" := by
  simp [Json.stringify]

/-- Unfolding of stringify at a string node. -/
theorem stringify_str (s : String) :
    Json.stringify (.str s) = jsonQuote s := by
  simp [Json.stringify]

/-- Unfolding of stringify at an array node. -/
theorem stringify_arr (xs : List Json) :
    Json.stringify (.arr xs) = "[" ++ Json.stringifyList xs ++ "]" := by
  simp [Json.stringify]

/-- Unfolding of stringify at a number node. -/
theorem stringify_num (n : Int) :
    Json.stringify (.num n) = toString n := by
  simp [Json.stringify]

/-- Serializing a list of JSON strings is the comma-joined quoted list. -/
theorem stringifyList_strs (l : List String) :
    Json.stringifyList (l.map Json.str) = strListSerial l := by
  induction l with
  | nil => rfl
  | cons d t ih =>
    cases t with
    | nil => rfl
    | cons e t2 =>
      simp only [List.map, Json.stringifyList, strListSerial, Json.stringify]
      rw [← ih]
      simp [List.map]

/-- Serializing one JSON-viewed value matches the direct serializer. -/
theorem stringify_valJson (v : Val) :
    Json.stringify (valJson v) = valSerial v := by
  cases v with
  | num n => rfl
  | str s => rfl
  | boolean b => rfl
  | strList l =>
    simp only [valJson, valSerial, Json.stringify, stringifyList_strs]

/-- Serializing a JSON-viewed argument list matches the direct
serializer. -/
theorem stringifyList_vals (l : List Val) :
    Json.stringifyList (l.map valJson) = valsSerial l := by
  induction l with
  | nil => rfl
  | cons v t ih =>
    cases t with
    | nil =>
      simp only [List.map, Json.stringifyList, valsSerial, stringify_valJson]
    | cons w t2 =>
      simp only [List.map, Json.stringifyList, valsSerial, stringify_valJson]
      rw [← ih]
      simp [List.map]

/-- The operation serializer matches JSON.stringify of the operation
object literal. -/
theorem stringify_operationJson (o : Operation) :
    Json.stringify (operationJson o) = operationSerial o := by
  simp only [operationJson, operationSerial, stringify_obj,
    Json.stringifyMembers, stringify_str, stringify_arr,
    stringifyList_vals, strAppendAssoc]

/-- C1, amended. The vertex hash computed by computeHash equals the
SHA-256 digest, lowercase hex, of the JSON.stringify serialization of
the record with members in the fixed insertion order operation, deps,
peerId, timestamp (not sorted key order), without whitespace, the
operation member omitted when undefined. -/
theorem computeHash_fixed_key_order (p : String) (op : Option Operation)
    (deps : List String) (ts : Int) :
    computeHash p op deps ts =
      sha256hex (Json.stringify (preimageJson p op deps ts)) := by
  unfold computeHash
  congr 1
  cases op with
  | none =>
    simp only [preimageSerial, preimageJson, List.nil_append, stringify_obj,
      Json.stringifyMembers, stringify_str, stringify_arr, stringify_num,
      stringifyList_strs, strAppendEmpty, strAppendAssoc]
  | some o =>
    simp only [preimageSerial, preimageJson, List.cons_append,
      List.nil_append, stringify_obj, Json.stringifyMembers, stringify_str,
      stringify_arr, stringify_num, stringifyList_strs,
      stringify_operationJson, strAppendAssoc]

/-- Evaluation of the sorted-key hash: sorting the four keys puts deps
first, before operation. -/
theorem sortedKeyHash_eval (p : String) (o : Operation)
    (deps : List String) (ts : Int) :
    sortedKeyHash p (some o) deps ts =
      sha256hex (sortedPreimageSerial p o deps ts) := by
  unfold sortedKeyHash sortedKeyStringify preimageJson
  congr 1
  have hsort :
      sortByKey [("operation", operationJson o),
                 ("deps", Json.arr (deps.map Json.str)),
                 ("peerId", Json.str p),
                 ("timestamp", Json.num ts)] =
        [("deps", Json.arr (deps.map Json.str)),
         ("operation", operationJson o),
         ("peerId", Json.str p),
         ("timestamp", Json.num ts)] := by
    simp +decide [sortByKey, insertByKey]
  simp only [List.cons_append, List.nil_append]
  rw [hsort]
  simp only [sortedPreimageSerial, stringify_obj, Json.stringifyMembers,
    stringify_str, stringify_arr, stringify_num, stringifyList_strs,
    stringify_operationJson, strAppendAssoc]

/-- C1 counterexample. At a concrete input, the hash the source computes
differs from the SHA-256 digest of the sorted-key serialization of the
record, because JSON.stringify keeps the insertion order operation,
deps, peerId, timestamp while sorted key order starts with deps. -/
theorem computeHash_not_sorted_key :
    computeHash "p1" (some cxOp) ["h1"] 5 ≠
      sortedKeyHash "p1" (some cxOp) ["h1"] 5 := by
  rw [sortedKeyHash_eval]
  decide

/-! ## Basic lemmas about attribute maps and the graph -/

/-- Looking up the key just set yields the new value. -/
theorem lookupA_setA_self (m : List (String × α)) (k : String) (v : α) :
    lookupA (setA m k v) k = some v := by
  induction m with
  | nil => simp [setA, lookupA]
  | cons p t ih =>
    by_cases h : p.1 = k
    · simp [setA, h, lookupA]
    · simp [setA, h, lookupA, ih]

/-- Setting one key leaves lookups of other keys unchanged. -/
theorem lookupA_setA_ne (m : List (String × α)) (k k2 : String) (v : α)
    (h : k2 ≠ k) : lookupA (setA m k v) k2 = lookupA m k2 := by
  induction m with
  | nil =>
    simp only [setA, lookupA]
    rw [if_neg (fun hx => h (hx.symm))]
  | cons p t ih =>
    by_cases hp : p.1 = k
    · simp only [setA, hp, if_true, lookupA]
      rw [if_neg (fun hx : k = k2 => h hx.symm), if_neg (fun hx : k = k2 => h hx.symm)]
    · simp only [setA, hp, if_false, lookupA]
      by_cases hq : p.1 = k2
      · rw [if_pos hq, if_pos hq]
      · rw [if_neg hq, if_neg hq, ih]

/-- Setting a key preserves presence of any key. -/
theorem lookupA_setA_isSome_mono (m : List (String × α)) (k k2 : String)
    (v : α) (h : (lookupA m k2).isSome = true) :
    (lookupA (setA m k v) k2).isSome = true := by
  by_cases hq : k2 = k
  · rw [hq, lookupA_setA_self]
    rfl
  · rw [lookupA_setA_ne m k k2 v hq]
    exact h

/-- Finding in an appended list: the first list wins. -/
theorem find?_append_some {α : Type} (p : α → Bool) (l1 l2 : List α) (x : α)
    (h : l1.find? p = some x) : (l1 ++ l2).find? p = some x := by
  induction l1 with
  | nil => simp [List.find?] at h
  | cons a t ih =>
    by_cases hp : p a = true
    · rw [List.find?_cons_of_pos _ hp] at h
      rw [List.cons_append, List.find?_cons_of_pos _ hp]
      exact h
    · rw [List.find?_cons_of_neg _ hp] at h
      rw [List.cons_append, List.find?_cons_of_neg _ hp]
      exact ih h

/-- A vertex just added is found by its hash. -/
theorem graphHas_addVertexS_self (s : EngineState) (v : Vertex) :
    graphHas (addVertexS s v) v.hash = true := by
  simp only [graphHas, graphLookup, addVertexS]
  induction s.graph with
  | nil => simp [List.find?]
  | cons a t ih =>
    by_cases hp : a.hash = v.hash
    · rw [List.cons_append, List.find?_cons_of_pos _ (by simp [hp])]
      rfl
    · rw [List.cons_append, List.find?_cons_of_neg _ (by simp [hp])]
      exact ih

/-- Graph lookups survive vertex addition. -/
theorem graphLookup_addVertexS_mono (s : EngineState) (v dv : Vertex)
    (h2 : String) (h : graphLookup s h2 = some dv) :
    graphLookup (addVertexS s v) h2 = some dv := by
  simp only [graphLookup, addVertexS] at h ⊢
  exact find?_append_some _ _ _ _ h

/-! ## Validation: the characterization behind claim C2 -/

/-- The dependency loop succeeds exactly when every dependency exists in
the graph with a timestamp not above the vertex's. -/
theorem checkDeps_ok_iff (s : EngineState) (ts : Int) (l : List String) :
    checkDeps s ts l = .ok () ↔
      ∀ d ∈ l, ∃ dv, graphLookup s d = some dv ∧ dv.timestamp ≤ ts := by
  induction l with
  | nil => simp [checkDeps]
  | cons d t ih =>
    simp only [checkDeps]
    cases hg : graphLookup s d with
    | none =>
      simp only [List.mem_cons]
      constructor
      · intro hx
        exact absurd hx (by simp)
      · intro hx
        obtain ⟨dv, hdv, _⟩ := hx d (Or.inl rfl)
        rw [hg] at hdv
        exact absurd hdv (by simp)
    | some dv =>
      by_cases hts : dv.timestamp > ts
      · simp only [hts, if_true]
        constructor
        · intro hx
          exact absurd hx (by simp)
        · intro hx
          obtain ⟨dv2, hdv2, hle⟩ := hx d (by simp)
          rw [hg] at hdv2
          injection hdv2 with he
          rw [← he] at hle
          omega
      · simp only [hts, if_false, ih]
        constructor
        · intro hx d2 hd2
          rcases List.mem_cons.mp hd2 with he | hm
          · exact ⟨dv, he ▸ hg, by omega⟩
          · exact hx d2 hm
        · intro hx d2 hd2
          exact hx d2 (List.mem_cons_of_mem _ hd2)

/-- The full characterization of validateVertex success, shared by the
claims that reason about validation. -/
theorem validate_ok_char (s : EngineState) (v : Vertex) :
    validateVertex s v = .ok () ↔
      (v.hash = computeHash v.peerId v.operation v.dependencies v.timestamp ∧
       v.dependencies ≠ [] ∧
       (∀ d ∈ v.dependencies, ∃ dv, graphLookup s d = some dv ∧ dv.timestamp ≤ v.timestamp) ∧
       v.timestamp ≤ s.now ∧
       checkWriterPermission s v.peerId v.dependencies = .ok true) := by
  unfold validateVertex
  by_cases h1 : v.hash = computeHash v.peerId v.operation v.dependencies v.timestamp
  · rw [if_neg (not_not_intro h1)]
    by_cases h2 : v.dependencies.isEmpty
    · rw [if_pos h2]
      simp only [List.isEmpty_iff] at h2
      simp [h1, h2]
    · rw [if_neg h2]
      simp only [List.isEmpty_iff] at h2
      cases hc : checkDeps s v.timestamp v.dependencies with
      | error e =>
        have hnc : ¬ ∀ d ∈ v.dependencies,
            ∃ dv, graphLookup s d = some dv ∧ dv.timestamp ≤ v.timestamp := by
          intro hx
          rw [(checkDeps_ok_iff s v.timestamp v.dependencies).mpr hx] at hc
          exact absurd hc (by simp)
        simp [hnc]
      | ok u =>
        cases u
        have hdeps := (checkDeps_ok_iff s v.timestamp v.dependencies).mp hc
        by_cases h4 : v.timestamp > s.now
        · rw [if_pos h4]
          constructor
          · intro hx
            exact absurd hx (by simp)
          · intro hx
            omega
        · rw [if_neg h4]
          have h4le : v.timestamp ≤ s.now := by omega
          cases hw : checkWriterPermission s v.peerId v.dependencies with
          | error e => simp [h1, h2, hdeps, hw, h4le]
          | ok b =>
            cases b
            · simp [h1, h2, hdeps, hw, h4le]
            · simp [h1, h2, hw, h4le]
              exact hdeps
  · rw [if_pos h1]
    simp [h1]

/-- C2. validateVertex returns without error exactly when all six rules
hold: the hash matches the recomputation, the dependency list is
non-empty, every dependency exists in the graph, no dependency has a
later timestamp, the timestamp is not in the future of the wall clock,
and the writer-permission check answers true; it throws exactly when at
least one rule is violated. -/
theorem validateVertex_ok_iff (s : EngineState) (v : Vertex) :
    validateVertex s v = .ok () ↔
      (v.hash = computeHash v.peerId v.operation v.dependencies v.timestamp ∧
       v.dependencies ≠ [] ∧
       (∀ d ∈ v.dependencies, ∃ dv, graphLookup s d = some dv ∧ dv.timestamp ≤ v.timestamp) ∧
       v.timestamp ≤ s.now ∧
       checkWriterPermission s v.peerId v.dependencies = .ok true) :=
  validate_ok_char s v

/-! ## Construction: claim C9 -/

/-- C9. Construction succeeds exactly when at least one of
publicCredential and acl is supplied (the source throws only when both
are absent); when no explicit ACL is supplied, the object's ACL is the
default permissionless ObjectACL whose sole admin is the creator with
their public credential; a supplied ACL is used as given. -/
theorem constructor_requires_credential_or_acl (o : CtorOptions) :
    ((constructDRPObject o =
        .error "Either publicCredential or acl must be provided to create a DRPObject") ↔
      (o.acl = none ∧ o.publicCredential = none)) ∧
    ((∃ r, constructDRPObject o = .ok r) ↔ (o.acl ≠ none ∨ o.publicCredential ≠ none)) ∧
    (∀ c r, o.acl = none → o.publicCredential = some c →
      constructDRPObject o = .ok r →
      r.objAcl = { admins := [(o.peerId, c)], permissionless := true }) ∧
    (∀ a r, o.acl = some a → constructDRPObject o = .ok r → r.objAcl = a) := by
  obtain ⟨pid, cred, acl⟩ := o
  refine ⟨?_, ?_, ?_, ?_⟩
  · cases acl with
    | some a => simp [constructDRPObject]
    | none =>
      cases cred with
      | some c => simp [constructDRPObject]
      | none => simp [constructDRPObject]
  · cases acl with
    | some a => simp [constructDRPObject]
    | none =>
      cases cred with
      | some c => simp [constructDRPObject]
      | none => simp [constructDRPObject]
  · intro c r hacl hcred hok
    subst hacl
    subst hcred
    simp only [constructDRPObject, Option.isNone_none, Option.isNone_some,
      Bool.and_false, Bool.false_eq_true, if_false] at hok
    injection hok with he
    rw [← he]
    simp
  · intro a r hacl hok
    subst hacl
    simp only [constructDRPObject, Option.isNone_some, Bool.false_and,
      Bool.false_eq_true, if_false] at hok
    injection hok with he
    rw [← he]
    simp

/-- Witness for C9 at a concrete input: with a credential and no ACL the
constructor succeeds and installs the default permissionless ACL with
the creator as sole admin. -/
theorem constructor_requires_credential_or_acl_witness :
    (({ peerId := "p1", publicCredential := some ⟨"k"⟩, acl := none } : CtorOptions).acl = none) ∧
    (({ peerId := "p1", publicCredential := some ⟨"k"⟩, acl := none } : CtorOptions).publicCredential = some ⟨"k"⟩) ∧
    constructDRPObject { peerId := "p1", publicCredential := some ⟨"k"⟩, acl := none } =
      .ok { peerId := "p1", objAcl := { admins := [("p1", ⟨"k"⟩)], permissionless := true } } ∧
    ({ peerId := "p1", objAcl := { admins := [("p1", ⟨"k"⟩)], permissionless := true } } : CtorResult).objAcl =
      { admins := [("p1", ⟨"k"⟩)], permissionless := true } :=
  ⟨rfl, rfl, rfl,
    (constructor_requires_credential_or_acl
      { peerId := "p1", publicCredential := some ⟨"k"⟩, acl := none }).2.2.1
      ⟨"k"⟩ _ rfl rfl rfl⟩

/-! ## Claim C5: a throwing operation makes apply-local a no-op -/

/-- C5. When the speculative application of the operation to the cloned
pre-image throws, callFn is a no-op: it returns the untouched state (no
vertex, no graph, vertices, cache, finality or notification change) and
the undefined result. -/
theorem callFn_apply_error_noop (s : EngineState) (fn : String)
    (args : List Val) (ty : DrpType) (pre : AttrMap) (e : String)
    (h1 : callFnPre s ty = .ok pre)
    (h2 : applyOperationM (methodsFor s ty) pre (mkOperation ty fn args) = .error e) :
    callFn s fn args ty = (s, .ok none) := by
  unfold callFn
  simp [h1, h2]

/-- Witness for C5: the boom method throws, callFn returns the untouched
state and the undefined result. -/
theorem callFn_apply_error_noop_witness :
    callFnPre baseS DrpType.DRP = .ok [("x", Val.num 0)] ∧
    applyOperationM (methodsFor baseS DrpType.DRP) [("x", Val.num 0)]
      (mkOperation DrpType.DRP "boom" []) =
      .error "Error while applying operation boom: kaboom" ∧
    callFn baseS "boom" [] DrpType.DRP = (baseS, .ok none) :=
  ⟨rfl, rfl,
    callFn_apply_error_noop baseS "boom" [] DrpType.DRP [("x", Val.num 0)]
      "Error while applying operation boom: kaboom" rfl rfl⟩

/-! ## Claim C6: what the writer check consults -/

/-- C6, amended. With a user DRP registered the writer check answers
is-writer against the ACL reconstructed at the dependency set; in
ACL-only mode it instead answers against the current live ACL and its
answer does not depend on the dependency set at all. -/
theorem checkWriterPermission_mode_dependent (s : EngineState) (p : String)
    (deps : List String) :
    (s.hasDrp = true →
      checkWriterPermission s p deps =
        (computeObjectACL s deps none none).map (fun acl => aclIsWriter acl p)) ∧
    (s.hasDrp = false →
      (checkWriterPermission s p deps = .ok (aclIsWriter s.liveAcl p) ∧
       ∀ deps2, checkWriterPermission s p deps = checkWriterPermission s p deps2)) := by
  constructor
  · intro h
    unfold checkWriterPermission
    rw [h]
    cases hC : computeObjectACL s deps none none <;> simp [hC, Except.map]
  · intro h
    constructor
    · unfold checkWriterPermission
      rw [h]
      simp
    · intro deps2
      unfold checkWriterPermission
      rw [h]
      simp

/-- C6 counterexample. In ACL-only mode at a concrete state, the writer
check answers true from the live ACL although the ACL reconstructed at
the dependency set answers false: the check does not consult the
reconstruction regardless of DRP registration. -/
theorem checkWriter_ignores_deps_without_drp :
    checkWriterPermission noDrpS "q" ["h"] = .ok true ∧
    computeObjectACL noDrpS ["h"] none none =
      .ok [("permissionless", Val.boolean false)] ∧
    aclIsWriter [("permissionless", Val.boolean false)] "q" = false :=
  ⟨rfl, rfl, rfl⟩

/-- Witness for C6: both modes exercised at concrete states. -/
theorem checkWriterPermission_mode_dependent_witness :
    baseS.hasDrp = true ∧
    checkWriterPermission baseS "q" [rootHash] =
      (computeObjectACL baseS [rootHash] none none).map
        (fun acl => aclIsWriter acl "q") ∧
    noDrpS.hasDrp = false ∧
    checkWriterPermission noDrpS "q" ["h"] = .ok (aclIsWriter noDrpS.liveAcl "q") :=
  ⟨rfl, (checkWriterPermission_mode_dependent baseS "q" [rootHash]).1 rfl,
   rfl, ((checkWriterPermission_mode_dependent noDrpS "q" ["h"]).2 rfl).1⟩

/-! ## Claim C4: vertex creation exactly on detected state change -/

/-- The callFn tail does not touch the graph. -/
theorem callFnFinish_graph (s3 : EngineState) (v : Vertex) (ty : DrpType)
    (post : AttrMap) (r : Option Val) :
    (callFnFinish s3 v ty post r).1.graph = s3.graph := by
  unfold callFnFinish initFinality notifyS
  cases lookupA s3.aclStates v.hash <;> by_cases hty : ty = DrpType.ACL <;> simp [hty]

/-- Appending an element changes a list. -/
theorem append_singleton_ne {α : Type} (l : List α) (x : α) : l ++ [x] ≠ l := by
  intro h
  have := congrArg List.length h
  simp at this

/-- C4, amended. Under a successful pre-image computation and operation
application, callFn appends a new vertex exactly when the source's
change detection fires, which quantifies over the keys of the
pre-operation object (not over the attributes of the post-operation
clone): some pre-image key maps to a value that is not deep-equal on the
clone. When that detection does not fire, callFn returns the operation's
result with the entire state unchanged. -/
theorem callFn_change_detection (s : EngineState) (fn : String)
    (args : List Val) (ty : DrpType) (pre post : AttrMap) (r : Option Val)
    (h1 : callFnPre s ty = .ok pre)
    (h2 : applyOperationM (methodsFor s ty) pre (mkOperation ty fn args) = .ok (post, r)) :
    ((callFn s fn args ty).1.graph ≠ s.graph ↔ codeChanged pre post = true) ∧
    (codeChanged pre post = false → callFn s fn args ty = (s, .ok r)) ∧
    (codeChanged pre post = true →
      (callFn s fn args ty).1.graph = s.graph ++ [mkVertexFor s fn args ty]) := by
  have hmain : (codeChanged pre post = false → callFn s fn args ty = (s, .ok r)) ∧
      (codeChanged pre post = true →
        (callFn s fn args ty).1.graph = s.graph ++ [mkVertexFor s fn args ty]) := by
    constructor
    · intro hch
      unfold callFn
      simp [h1, h2, hch]
    · intro hch
      unfold callFn
      simp only [h1, h2, hch, Bool.true_eq_false, if_false]
      by_cases hty : ty = DrpType.DRP
      · simp only [hty, if_true]
        cases hacl : computeObjectACL (addVertexS s (mkVertexFor s fn args DrpType.DRP))
            (mkVertexFor s fn args DrpType.DRP).dependencies none
            (some (mkOperation DrpType.DRP fn args)) with
        | error e => simp [addVertexS]
        | ok aclSt => simp [callFnFinish_graph, addVertexS]
      · simp only [hty, if_false]
        cases hdrp : computeDRP
            { addVertexS s (mkVertexFor s fn args ty) with
              aclStates := setA (addVertexS s (mkVertexFor s fn args ty)).aclStates
                (mkVertexFor s fn args ty).hash (getDRPStateOf post) }
            (mkVertexFor s fn args ty).dependencies none
            (some (mkOperation ty fn args)) with
        | error e => simp [hdrp, addVertexS]
        | ok drpSt => simp [hdrp, callFnFinish_graph, addVertexS]
  refine ⟨?_, hmain.1, hmain.2⟩
  cases hch : codeChanged pre post with
  | true =>
    simp only [iff_true]
    rw [hmain.2 hch]
    exact append_singleton_ne s.graph (mkVertexFor s fn args ty)
  | false =>
    simp only [Bool.false_eq_true, iff_false, ne_eq, not_not]
    rw [hmain.1 hch]

/-- C4 counterexample. A method that only adds a fresh attribute leaves
every pre-image key deep-equal, so callFn creates no vertex and returns
with the state untouched, although the post-operation clone does have an
attribute (y) that is not deep-equal to the corresponding attribute of
the pre-operation object, which is what the claim quantifies over. -/
theorem callFn_added_attribute_no_vertex :
    claimChanged preA postA = true ∧
    codeChanged preA postA = false ∧
    applyOperationM (methodsFor baseS DrpType.DRP) preA
      (mkOperation DrpType.DRP "addy" []) = .ok (postA, some (Val.num 7)) ∧
    callFn baseS "addy" [] DrpType.DRP = (baseS, .ok (some (Val.num 7))) :=
  ⟨rfl, rfl, rfl, rfl⟩

/-- Witness for C4: the inc method changes the pre-image key x, so a
vertex is appended. -/
theorem callFn_change_detection_witness :
    callFnPre baseS DrpType.DRP = .ok preA ∧
    applyOperationM (methodsFor baseS DrpType.DRP) preA
      (mkOperation DrpType.DRP "inc" []) = .ok ([("x", Val.num 1)], some (Val.num 1)) ∧
    codeChanged preA [("x", Val.num 1)] = true ∧
    (callFn baseS "inc" [] DrpType.DRP).1.graph =
      baseS.graph ++ [mkVertexFor baseS "inc" [] DrpType.DRP] :=
  ⟨rfl, rfl, rfl,
    (callFn_change_detection baseS "inc" [] DrpType.DRP preA [("x", Val.num 1)]
      (some (Val.num 1)) rfl rfl).2.2 rfl⟩

/-- The frame relation is reflexive. -/
theorem frameNoDrp_refl (a : EngineState) : frameNoDrp a a :=
  ⟨rfl, rfl, rfl, rfl, rfl, rfl, rfl, rfl, rfl⟩

/-- The frame relation is transitive. -/
theorem frameNoDrp_trans {a b c : EngineState}
    (h1 : frameNoDrp a b) (h2 : frameNoDrp b c) : frameNoDrp a c := by
  obtain ⟨x1, x2, x3, x4, x5, x6, x7, x8, x9⟩ := h1
  obtain ⟨y1, y2, y3, y4, y5, y6, y7, y8, y9⟩ := h2
  exact ⟨x1.trans y1, x2.trans y2, x3.trans y3, x4.trans y4, x5.trans y5,
         x6.trans y6, x7.trans y7, x8.trans y8, x9.trans y9⟩

/-- The cons unfolding of the ACL-only merge loop, via structure eta. -/
theorem mergeLoopNoDrp_cons (s : EngineState) (w : Vertex) (t : List Vertex) :
    mergeLoopNoDrp s (w :: t) =
      ((mergeLoopNoDrp (mergeVertexNoDrp s w).1 t).1,
       (mergeVertexNoDrp s w).2.toList ++
         (mergeLoopNoDrp (mergeVertexNoDrp s w).1 t).2) := rfl

/-- One ACL-only merge iteration only touches the graph and frontier. -/
theorem mergeVertexNoDrp_frame (s : EngineState) (v : Vertex) :
    frameNoDrp (mergeVertexNoDrp s v).1 s := by
  unfold mergeVertexNoDrp
  cases v.operation with
  | none => exact frameNoDrp_refl s
  | some op =>
    by_cases hg : graphHas s v.hash = true
    · simp only [hg, if_true]
      exact frameNoDrp_refl s
    · simp only [hg, Bool.false_eq_true, if_false]
      cases validateVertex s v with
      | error e => exact frameNoDrp_refl s
      | ok u =>
        exact ⟨rfl, rfl, rfl, rfl, rfl, rfl, rfl, rfl, rfl⟩

/-- The ACL-only merge loop only touches the graph and frontier. -/
theorem mergeLoopNoDrp_frame (vs : List Vertex) :
    ∀ s, frameNoDrp (mergeLoopNoDrp s vs).1 s := by
  induction vs with
  | nil => intro s; exact frameNoDrp_refl s
  | cons w t ih =>
    intro s
    rw [mergeLoopNoDrp_cons]
    exact frameNoDrp_trans (ih (mergeVertexNoDrp s w).1) (mergeVertexNoDrp_frame s w)

/-- Graph lookups survive one ACL-only merge iteration. -/
theorem graphLookup_mergeVertexNoDrp_mono (s : EngineState) (v dv : Vertex)
    (h2 : String) (h : graphLookup s h2 = some dv) :
    graphLookup (mergeVertexNoDrp s v).1 h2 = some dv := by
  unfold mergeVertexNoDrp
  cases v.operation with
  | none => exact h
  | some op =>
    by_cases hg : graphHas s v.hash = true
    · simp only [hg, if_true]
      exact h
    · simp only [hg, Bool.false_eq_true, if_false]
      cases validateVertex s v with
      | error e => exact h
      | ok u => exact graphLookup_addVertexS_mono s v dv h2 h

/-- Graph lookups survive the ACL-only merge loop. -/
theorem graphLookup_mergeLoopNoDrp_mono (vs : List Vertex) :
    ∀ s dv h2, graphLookup s h2 = some dv →
      graphLookup (mergeLoopNoDrp s vs).1 h2 = some dv := by
  induction vs with
  | nil => intro s dv h2 h; exact h
  | cons w t ih =>
    intro s dv h2 h
    rw [mergeLoopNoDrp_cons]
    exact ih _ dv h2 (graphLookup_mergeVertexNoDrp_mono s w dv h2 h)

/-- Presence in the graph survives the ACL-only merge loop. -/
theorem graphHas_mergeLoopNoDrp_mono (vs : List Vertex) (s : EngineState)
    (h2 : String) (h : graphHas s h2 = true) :
    graphHas (mergeLoopNoDrp s vs).1 h2 = true := by
  simp only [graphHas] at h ⊢
  cases hl : graphLookup s h2 with
  | none => rw [hl] at h; simp at h
  | some dv => rw [graphLookup_mergeLoopNoDrp_mono vs s dv h2 hl]; rfl

/-- Validation success transfers to any state in ACL-only mode that has
the same clock and live ACL and at least the same graph entries. -/
theorem validateVertex_stable (s s2 : EngineState) (v : Vertex)
    (hD : s.hasDrp = false) (hD2 : s2.hasDrp = false)
    (hN : s2.now = s.now) (hA : s2.liveAcl = s.liveAcl)
    (hL : ∀ d dv, graphLookup s d = some dv → graphLookup s2 d = some dv)
    (h : validateVertex s v = .ok ()) : validateVertex s2 v = .ok () := by
  rw [validate_ok_char] at h ⊢
  obtain ⟨h1, hne, h3, h4, h5⟩ := h
  refine ⟨h1, hne, ?_, ?_, ?_⟩
  · intro d hd
    obtain ⟨dv, hdv, hts⟩ := h3 d hd
    exact ⟨dv, hL d dv hdv, hts⟩
  · rw [hN]; exact h4
  · unfold checkWriterPermission at h5 ⊢
    rw [hD] at h5
    rw [hD2, hA]
    have h5b : aclIsWriter s.liveAcl v.peerId = true := by simpa using h5
    simp [h5b]

/-- After one ACL-only iteration on a vertex with an operation that
validates, the vertex is present. -/
theorem mergeVertexNoDrp_self_has (s : EngineState) (w : Vertex)
    (hop : w.operation.isSome = true) (hval : validateVertex s w = .ok ()) :
    graphHas (mergeVertexNoDrp s w).1 w.hash = true := by
  unfold mergeVertexNoDrp
  cases hopP : w.operation with
  | none => rw [hopP] at hop; simp at hop
  | some op =>
    by_cases hg : graphHas s w.hash = true
    · simp only [hg, if_true]
    · simp only [hg, Bool.false_eq_true, if_false, hval]
      exact graphHas_addVertexS_self s w

/-- Every vertex of the batch that carries an operation and validates
against the pre-merge state is admitted by the ACL-only loop. -/
theorem mergeLoopNoDrp_admits (vs : List Vertex) :
    ∀ s, s.hasDrp = false →
      ∀ v ∈ vs, v.operation.isSome = true → validateVertex s v = .ok () →
        graphHas (mergeLoopNoDrp s vs).1 v.hash = true := by
  induction vs with
  | nil => intro s _ v hv; simp at hv
  | cons w t ih =>
    intro s hD v hv hop hval
    rw [mergeLoopNoDrp_cons]
    have hf1 : frameNoDrp (mergeVertexNoDrp s w).1 s := mergeVertexNoDrp_frame s w
    rcases List.mem_cons.mp hv with he | hm
    · subst he
      exact graphHas_mergeLoopNoDrp_mono t _ v.hash
        (mergeVertexNoDrp_self_has s v hop hval)
    · have hD1 : (mergeVertexNoDrp s w).1.hasDrp = false :=
        hf1.2.2.2.2.2.2.2.1.trans hD
      have hval1 : validateVertex (mergeVertexNoDrp s w).1 v = .ok () := by
        refine validateVertex_stable s (mergeVertexNoDrp s w).1 v hD hD1 ?_ ?_ ?_ hval
        · exact hf1.2.2.2.2.2.2.2.2
        · exact hf1.2.2.2.1
        · intro d dv hdv
          exact graphLookup_mergeVertexNoDrp_mono s w dv d hdv
      exact ih _ hD1 v hm hop hval1

/-- The state mergeWithoutDrp returns is the loop's state. -/
theorem mergeWithoutDrp_fst (s : EngineState) (vs : List Vertex) :
    (mergeWithoutDrp s vs).1 = (mergeLoopNoDrp s vs).1 := by
  unfold mergeWithoutDrp
  rcases mergeLoopNoDrp s vs with ⟨s1, m⟩
  rfl

/-- C10. In ACL-only mode, merge runs the without-DRP path and returns
its pair without error; that path admits every validated vertex carrying
an operation into the graph, but writes no entry into either state
cache, does not initialize finality state, does not refresh the live ACL
or DRP references, never notifies subscribers, and leaves the vertices
list untouched. -/
theorem merge_without_drp_frame (s : EngineState) (vs : List Vertex)
    (h : s.hasDrp = false) :
    merge s vs = ((mergeWithoutDrp s vs).1, .ok (mergeWithoutDrp s vs).2) ∧
    frameNoDrp (mergeWithoutDrp s vs).1 s ∧
    (∀ v ∈ vs, v.operation.isSome = true → validateVertex s v = .ok () →
      graphHas (mergeWithoutDrp s vs).1 v.hash = true) := by
  refine ⟨?_, ?_, ?_⟩
  · unfold merge
    rw [if_pos h]
  · rw [mergeWithoutDrp_fst]
    exact mergeLoopNoDrp_frame vs s
  · intro v hv hop hval
    rw [mergeWithoutDrp_fst]
    exact mergeLoopNoDrp_admits vs s h v hv hop hval

/-- Witness for C10 at a concrete ACL-only state and a batch of one
valid vertex. -/
theorem merge_without_drp_frame_witness :
    noDrpS.hasDrp = false ∧
    goodV ∈ [goodV] ∧
    goodV.operation.isSome = true ∧
    validateVertex noDrpS goodV = .ok () ∧
    graphHas (mergeWithoutDrp noDrpS [goodV]).1 goodV.hash = true :=
  ⟨rfl, by simp, rfl, by decide,
    (merge_without_drp_frame noDrpS [goodV] rfl).2.2 goodV (by simp) rfl (by decide)⟩

/-- The cons unfolding of the with-DRP merge loop, via structure eta. -/
theorem mergeLoopDrp_cons (s : EngineState) (w : Vertex) (t : List Vertex) :
    mergeLoopDrp s (w :: t) =
      ((mergeLoopDrp (mergeVertexDrp s w).1 t).1,
       (mergeVertexDrp s w).2.1.toList ++ (mergeLoopDrp (mergeVertexDrp s w).1 t).2.1,
       (mergeVertexDrp s w).2.2.toList ++ (mergeLoopDrp (mergeVertexDrp s w).1 t).2.2) := rfl

/-- The missing list of the ACL-only loop is exactly the failure list. -/
theorem mergeLoopNoDrp_missing (vs : List Vertex) :
    ∀ s, (mergeLoopNoDrp s vs).2 = mergeFailuresNoDrp s vs := by
  induction vs with
  | nil => intro s; rfl
  | cons w t ih =>
    intro s
    rw [mergeLoopNoDrp_cons]
    simp only [mergeFailuresNoDrp]
    rcases hp : mergeVertexNoDrp s w with ⟨s1, mh⟩
    cases mh <;> simp [ih]

/-- The missing list of the with-DRP loop is exactly the failure list. -/
theorem mergeLoopDrp_missing (vs : List Vertex) :
    ∀ s, (mergeLoopDrp s vs).2.1 = mergeFailuresDrp s vs := by
  induction vs with
  | nil => intro s; rfl
  | cons w t ih =>
    intro s
    rw [mergeLoopDrp_cons]
    simp only [mergeFailuresDrp]
    rcases hp : mergeVertexDrp s w with ⟨s1, mh, nv⟩
    cases mh <;> simp [ih]

/-- The unfolding of mergeWithDrp through its projections. -/
theorem mergeWithDrp_eq (s : EngineState) (vs : List Vertex) :
    mergeWithDrp s vs =
      (match updateObjectACLState
          { (mergeLoopDrp s vs).1 with
            vertices := getAllVertices (mergeLoopDrp s vs).1.graph } with
       | .error e =>
         ({ (mergeLoopDrp s vs).1 with
            vertices := getAllVertices (mergeLoopDrp s vs).1.graph }, .error e)
       | .ok s3 =>
         match updateDRPState s3 with
         | .error e => (s3, .error e)
         | .ok s4 =>
           (notifyS s4 "merge" (mergeLoopDrp s vs).2.2,
            .ok ((mergeLoopDrp s vs).2.1.isEmpty, (mergeLoopDrp s vs).2.1))) := rfl

/-- C3. Per-vertex failures never escape merge: both merge paths run to
the end of the batch, a vertex whose validation or state computation
fails only contributes its hash to the returned missing list (in
processing order, exactly the failing vertices), and the first component
of the returned pair is true exactly when the missing list is empty. -/
theorem merge_collects_failures (s : EngineState) (vs : List Vertex) :
    ∀ s1 b m, merge s vs = (s1, .ok (b, m)) →
      ((b = true ↔ m = []) ∧
       m = (if s.hasDrp = false then mergeFailuresNoDrp s vs
            else mergeFailuresDrp s vs)) := by
  intro s1 b m h
  unfold merge at h
  by_cases hD : s.hasDrp = false
  · rw [if_pos hD] at h
    rw [if_pos hD]
    have h2 : ((mergeWithoutDrp s vs).1,
        Except.ok (ε := String) (mergeWithoutDrp s vs).2) = (s1, .ok (b, m)) := h
    have h3 : (mergeWithoutDrp s vs).2 =
        ((mergeLoopNoDrp s vs).2.isEmpty, (mergeLoopNoDrp s vs).2) := rfl
    injection h2 with hA hB
    injection hB with hC
    rw [h3] at hC
    injection hC with hb hm
    constructor
    · rw [← hb, ← hm]
      simp [List.isEmpty_iff]
    · rw [← hm, mergeLoopNoDrp_missing]
  · rw [if_neg hD] at h
    rw [if_neg hD]
    rw [mergeWithDrp_eq] at h
    cases hU1 : updateObjectACLState
        { (mergeLoopDrp s vs).1 with
          vertices := getAllVertices (mergeLoopDrp s vs).1.graph } with
    | error e =>
      rw [hU1] at h
      dsimp only at h
      injection h with hA hB
      injection hB
    | ok s3 =>
      rw [hU1] at h
      dsimp only at h
      cases hU2 : updateDRPState s3 with
      | error e =>
        rw [hU2] at h
        dsimp only at h
        injection h with hA hB
        injection hB
      | ok s4 =>
        rw [hU2] at h
        dsimp only at h
        injection h with hA hB
        injection hB with hC
        injection hC with hb hm
        constructor
        · rw [← hb, ← hm]
          simp [List.isEmpty_iff]
        · rw [← hm, mergeLoopDrp_missing]

/-- Witness for C3: merging a batch with one tampered vertex returns
false with that hash in missing, and the characterization applies. -/
theorem merge_collects_failures_witness :
    ((false = true) ↔ (["bogus"] : List String) = []) ∧
    (["bogus"] : List String) =
      (if baseS.hasDrp = false then mergeFailuresNoDrp baseS [badV]
       else mergeFailuresDrp baseS [badV]) :=
  merge_collects_failures baseS [badV] (merge baseS [badV]).1 false ["bogus"] rfl

/-- The invariant holds initially. -/
theorem cachedP_self (s : EngineState) : cachedP s s := by
  intro v hv hnv
  exact absurd hv hnv

/-- The invariant transports along equality of graph and caches. -/
theorem cachedP_congr {s0 a b : EngineState} (hg : a.graph = b.graph)
    (hd : a.drpStates = b.drpStates) (ha : a.aclStates = b.aclStates)
    (h : cachedP s0 b) : cachedP s0 a := by
  intro v hv hnv
  rw [hg] at hv
  rw [hd, ha]
  exact h v hv hnv

/-- initFinality touches only the finality store. -/
theorem initFinality_frame (s : EngineState) (h : String) :
    (initFinality s h).graph = s.graph ∧
    (initFinality s h).drpStates = s.drpStates ∧
    (initFinality s h).aclStates = s.aclStates := by
  unfold initFinality
  cases lookupA s.aclStates h <;> exact ⟨rfl, rfl, rfl⟩

/-- One with-DRP merge iteration preserves the cache invariant. -/
theorem mergeVertexDrp_cachedP (s0 s : EngineState) (w : Vertex)
    (hP : cachedP s0 s) : cachedP s0 (mergeVertexDrp s w).1 := by
  unfold mergeVertexDrp
  cases w.operation with
  | none => exact hP
  | some op =>
    dsimp only
    by_cases hg : graphHas s w.hash = true
    · rw [if_pos hg]
      exact hP
    · rw [if_neg hg]
      cases validateVertex s w with
      | error e => exact hP
      | ok u =>
        dsimp only
        by_cases hty : op.drpType = DrpType.DRP
        · rw [if_pos hty]
          cases computeDRP s w.dependencies (some (computeLCA s w.dependencies)) (some op) with
          | error e => exact hP
          | ok drp =>
            dsimp only
            cases computeObjectACL s w.dependencies (some (computeLCA s w.dependencies)) (some op) with
            | error e => exact hP
            | ok aclSt =>
              dsimp only
              intro v hv hnv
              obtain ⟨hfg, hfd, hfa⟩ := initFinality_frame
                (addVertexS { s with
                  drpStates := setA s.drpStates w.hash (getDRPStateOf drp),
                  aclStates := setA s.aclStates w.hash aclSt } w) w.hash
              rw [hfg] at hv
              rw [hfd, hfa]
              simp only [addVertexS] at hv ⊢
              rcases List.mem_append.mp hv with hin | hw
              · obtain ⟨hd1, ha1⟩ := hP v hin hnv
                exact ⟨lookupA_setA_isSome_mono _ _ _ _ hd1,
                       lookupA_setA_isSome_mono _ _ _ _ ha1⟩
              · have hvw : v = w := by simpa using hw
                subst hvw
                constructor
                · rw [lookupA_setA_self]
                  rfl
                · rw [lookupA_setA_self]
                  rfl
        · rw [if_neg hty]
          cases computeObjectACL s w.dependencies (some (computeLCA s w.dependencies)) (some op) with
          | error e => exact hP
          | ok acl =>
            dsimp only
            cases computeDRP { s with aclStates := setA s.aclStates w.hash (getDRPStateOf acl) }
                w.dependencies (some (computeLCA s w.dependencies)) (some op) with
            | error e =>
              dsimp only
              intro v hv hnv
              obtain ⟨hd1, ha1⟩ := hP v hv hnv
              exact ⟨hd1, lookupA_setA_isSome_mono _ _ _ _ ha1⟩
            | ok drpSt =>
              dsimp only
              intro v hv hnv
              obtain ⟨hfg, hfd, hfa⟩ := initFinality_frame
                (addVertexS { { s with
                  aclStates := setA s.aclStates w.hash (getDRPStateOf acl) } with
                  drpStates := setA s.drpStates w.hash drpSt } w) w.hash
              rw [hfg] at hv
              rw [hfd, hfa]
              simp only [addVertexS] at hv ⊢
              rcases List.mem_append.mp hv with hin | hw
              · obtain ⟨hd1, ha1⟩ := hP v hin hnv
                exact ⟨lookupA_setA_isSome_mono _ _ _ _ hd1,
                       lookupA_setA_isSome_mono _ _ _ _ ha1⟩
              · have hvw : v = w := by simpa using hw
                subst hvw
                constructor
                · rw [lookupA_setA_self]
                  rfl
                · rw [lookupA_setA_self]
                  rfl

/-- The with-DRP merge loop preserves the cache invariant. -/
theorem mergeLoopDrp_cachedP (vs : List Vertex) :
    ∀ s0 s, cachedP s0 s → cachedP s0 (mergeLoopDrp s vs).1 := by
  induction vs with
  | nil => intro s0 s h; exact h
  | cons w t ih =>
    intro s0 s h
    rw [mergeLoopDrp_cons]
    exact ih s0 _ (mergeVertexDrp_cachedP s0 s w h)

/-- The callFn tail does not touch the caches. -/
theorem callFnFinish_caches (s3 : EngineState) (v : Vertex) (ty : DrpType)
    (post : AttrMap) (r : Option Val) :
    (callFnFinish s3 v ty post r).1.drpStates = s3.drpStates ∧
    (callFnFinish s3 v ty post r).1.aclStates = s3.aclStates := by
  unfold callFnFinish initFinality notifyS
  cases lookupA s3.aclStates v.hash <;> by_cases hty : ty = DrpType.ACL <;> simp [hty]

/-- C7, amended. A vertex admitted by a callFn invocation that returns
without an error, or admitted by the with-DRP merge path whatever its
outcome, has entries in both state caches at its hash. The other
admission routes break the invariant (see the counterexample): the
ACL-only merge path admits vertices with no cache entries, and a callFn
that errors after admission, such as a state-changing ACL call with no
DRP registered, leaves its vertex without a drpStates entry. -/
theorem admitted_vertex_states_cached :
    (∀ s fn args ty s2 r, callFn s fn args ty = (s2, Except.ok r) →
      ∀ v, v ∈ s2.graph → v ∉ s.graph →
        (lookupA s2.drpStates v.hash).isSome = true ∧
        (lookupA s2.aclStates v.hash).isSome = true) ∧
    (∀ s vs out, mergeWithDrp s vs = out →
      ∀ v, v ∈ out.1.graph → v ∉ s.graph →
        (lookupA out.1.drpStates v.hash).isSome = true ∧
        (lookupA out.1.aclStates v.hash).isSome = true) := by
  constructor
  · intro s fn args ty s2 r h v hv hnv
    unfold callFn at h
    cases hpre : callFnPre s ty with
    | error e =>
      rw [hpre] at h
      dsimp only at h
      injection h with hA hB
      injection hB
    | ok pre =>
      rw [hpre] at h
      dsimp only at h
      cases happ : applyOperationM (methodsFor s ty) pre (mkOperation ty fn args) with
      | error e =>
        rw [happ] at h
        dsimp only at h
        injection h with hA hB
        rw [← hA] at hv
        exact absurd hv hnv
      | ok pr =>
        rw [happ] at h
        dsimp only at h
        rcases pr with ⟨post, result⟩
        dsimp only at h
        by_cases hch : codeChanged pre post = false
        · rw [if_pos hch] at h
          injection h with hA hB
          rw [← hA] at hv
          exact absurd hv hnv
        · rw [if_neg hch] at h
          by_cases hty : ty = DrpType.DRP
          · rw [if_pos hty] at h
            cases hacl : computeObjectACL (addVertexS s (mkVertexFor s fn args ty))
                (mkVertexFor s fn args ty).dependencies none (some (mkOperation ty fn args)) with
            | error e =>
              rw [hacl] at h
              dsimp only at h
              injection h with hA hB
              injection hB
            | ok aclSt =>
              rw [hacl] at h
              dsimp only at h
              obtain ⟨hcd, hca⟩ := callFnFinish_caches
                { addVertexS s (mkVertexFor s fn args ty) with
                  aclStates := setA (addVertexS s (mkVertexFor s fn args ty)).aclStates
                    (mkVertexFor s fn args ty).hash aclSt,
                  drpStates := setA (addVertexS s (mkVertexFor s fn args ty)).drpStates
                    (mkVertexFor s fn args ty).hash (getDRPStateOf post) }
                (mkVertexFor s fn args ty) ty post result
              have hgr := callFnFinish_graph
                { addVertexS s (mkVertexFor s fn args ty) with
                  aclStates := setA (addVertexS s (mkVertexFor s fn args ty)).aclStates
                    (mkVertexFor s fn args ty).hash aclSt,
                  drpStates := setA (addVertexS s (mkVertexFor s fn args ty)).drpStates
                    (mkVertexFor s fn args ty).hash (getDRPStateOf post) }
                (mkVertexFor s fn args ty) ty post result
              rw [h] at hcd hca hgr
              rw [hcd, hca]
              dsimp only at hgr
              rw [hgr] at hv
              simp only [addVertexS] at hv ⊢
              rcases List.mem_append.mp hv with hin | hw
              · exact absurd hin hnv
              · have hvw : v = mkVertexFor s fn args ty := by simpa using hw
                subst hvw
                constructor
                · rw [lookupA_setA_self]
                  rfl
                · rw [lookupA_setA_self]
                  rfl
          · rw [if_neg hty] at h
            cases hdrp : computeDRP
                { addVertexS s (mkVertexFor s fn args ty) with
                  aclStates := setA (addVertexS s (mkVertexFor s fn args ty)).aclStates
                    (mkVertexFor s fn args ty).hash (getDRPStateOf post) }
                (mkVertexFor s fn args ty).dependencies none (some (mkOperation ty fn args)) with
            | error e =>
              rw [hdrp] at h
              dsimp only at h
              injection h with hA hB
              injection hB
            | ok drpSt =>
              rw [hdrp] at h
              dsimp only at h
              obtain ⟨hcd, hca⟩ := callFnFinish_caches
                { addVertexS s (mkVertexFor s fn args ty) with
                  aclStates := setA (addVertexS s (mkVertexFor s fn args ty)).aclStates
                    (mkVertexFor s fn args ty).hash (getDRPStateOf post),
                  drpStates := setA (addVertexS s (mkVertexFor s fn args ty)).drpStates
                    (mkVertexFor s fn args ty).hash drpSt }
                (mkVertexFor s fn args ty) ty post result
              have hgr := callFnFinish_graph
                { addVertexS s (mkVertexFor s fn args ty) with
                  aclStates := setA (addVertexS s (mkVertexFor s fn args ty)).aclStates
                    (mkVertexFor s fn args ty).hash (getDRPStateOf post),
                  drpStates := setA (addVertexS s (mkVertexFor s fn args ty)).drpStates
                    (mkVertexFor s fn args ty).hash drpSt }
                (mkVertexFor s fn args ty) ty post result
              rw [h] at hcd hca hgr
              rw [hcd, hca]
              dsimp only at hgr
              rw [hgr] at hv
              simp only [addVertexS] at hv ⊢
              rcases List.mem_append.mp hv with hin | hw
              · exact absurd hin hnv
              · have hvw : v = mkVertexFor s fn args ty := by simpa using hw
                subst hvw
                constructor
                · rw [lookupA_setA_self]
                  rfl
                · rw [lookupA_setA_self]
                  rfl
  · intro s vs out h v hv hnv
    have hloop : cachedP s (mergeLoopDrp s vs).1 :=
      mergeLoopDrp_cachedP vs s s (cachedP_self s)
    rw [mergeWithDrp_eq] at h
    cases hU1 : updateObjectACLState
        { (mergeLoopDrp s vs).1 with
          vertices := getAllVertices (mergeLoopDrp s vs).1.graph } with
    | error e =>
      rw [hU1] at h
      dsimp only at h
      rw [← h] at hv ⊢
      dsimp only at hv ⊢
      exact hloop v hv hnv
    | ok s3 =>
      have hf3 : s3.graph = (mergeLoopDrp s vs).1.graph ∧
          s3.drpStates = (mergeLoopDrp s vs).1.drpStates ∧
          s3.aclStates = (mergeLoopDrp s vs).1.aclStates := by
        unfold updateObjectACLState at hU1
        cases hC : computeObjectACL
            { (mergeLoopDrp s vs).1 with
              vertices := getAllVertices (mergeLoopDrp s vs).1.graph }
            (getFrontier { (mergeLoopDrp s vs).1 with
              vertices := getAllVertices (mergeLoopDrp s vs).1.graph }) none none with
        | error e => rw [hC] at hU1; injection hU1
        | ok st =>
          rw [hC] at hU1
          injection hU1 with he
          rw [← he]
          exact ⟨rfl, rfl, rfl⟩
      rw [hU1] at h
      dsimp only at h
      cases hU2 : updateDRPState s3 with
      | error e =>
        rw [hU2] at h
        dsimp only at h
        rw [← h] at hv ⊢
        dsimp only at hv ⊢
        rw [hf3.1] at hv
        rw [hf3.2.1, hf3.2.2]
        exact hloop v hv hnv
      | ok s4 =>
        have hf4 : s4.graph = s3.graph ∧ s4.drpStates = s3.drpStates ∧
            s4.aclStates = s3.aclStates := by
          unfold updateDRPState at hU2
          by_cases hD : s3.hasDrp = false
          · rw [if_pos hD] at hU2
            injection hU2
          · rw [if_neg hD] at hU2
            cases hC : computeDRP s3 (getFrontier s3) none none with
            | error e => rw [hC] at hU2; injection hU2
            | ok st =>
              rw [hC] at hU2
              injection hU2 with he
              rw [← he]
              exact ⟨rfl, rfl, rfl⟩
        rw [hU2] at h
        dsimp only at h
        rw [← h] at hv ⊢
        simp only [notifyS] at hv ⊢
        rw [hf4.1, hf3.1] at hv
        rw [hf4.2.1, hf3.2.1, hf4.2.2, hf3.2.2]
        exact hloop v hv hnv

/-- C7 counterexample, twice over. In ACL-only mode, merge admits a
valid vertex into the graph while neither cache receives an entry at
its hash; and a state-changing ACL call in ACL-only mode admits its
vertex and writes the ACL cache, then aborts with DRP is undefined
before the DRP cache write, leaving an admitted vertex with no
drpStates entry. The unqualified claim over every admission fails. -/
theorem mergeWithoutDrp_admits_uncached :
    ((merge noDrpS [goodV]).2 = .ok (true, []) ∧
     graphHas (merge noDrpS [goodV]).1 goodV.hash = true ∧
     lookupA (merge noDrpS [goodV]).1.drpStates goodV.hash = none ∧
     lookupA (merge noDrpS [goodV]).1.aclStates goodV.hash = none) ∧
    ((callFn aclOnlyS "deny" [] DrpType.ACL).2 = .error "DRP is undefined" ∧
     graphHas (callFn aclOnlyS "deny" [] DrpType.ACL).1
       (mkVertexFor aclOnlyS "deny" [] DrpType.ACL).hash = true ∧
     lookupA (callFn aclOnlyS "deny" [] DrpType.ACL).1.drpStates
       (mkVertexFor aclOnlyS "deny" [] DrpType.ACL).hash = none ∧
     (lookupA (callFn aclOnlyS "deny" [] DrpType.ACL).1.aclStates
       (mkVertexFor aclOnlyS "deny" [] DrpType.ACL).hash).isSome = true) := by
  refine ⟨⟨by decide, by decide, by decide, by decide⟩,
    ⟨by decide, by decide, by decide, by decide⟩⟩

/-- Witness for C7: a vertex admitted by the with-DRP merge path has
entries in both caches. -/
theorem admitted_vertex_states_cached_witness :
    (lookupA (mergeWithDrp baseS [goodV]).1.drpStates goodV.hash).isSome = true ∧
    (lookupA (mergeWithDrp baseS [goodV]).1.aclStates goodV.hash).isSome = true :=
  admitted_vertex_states_cached.2 baseS [goodV] (mergeWithDrp baseS [goodV]) rfl
    goodV (by decide) (by decide)

/-- A key that looks up to nothing heads no entry. -/
theorem lookupA_none_not_mem (l : List (String × α)) (k : String)
    (h : lookupA l k = none) : ∀ p ∈ l, p.1 ≠ k := by
  induction l with
  | nil => intro p hp; simp at hp
  | cons a t ih =>
    intro p hp
    simp only [lookupA] at h
    by_cases ha : a.1 = k
    · rw [if_pos ha] at h
      exact absurd h (by simp)
    · rw [if_neg ha] at h
      rcases List.mem_cons.mp hp with he | hm
      · rw [he]; exact ha
      · exact ih h p hm

/-- With unique keys, setting a present key is a pointwise map. -/
theorem setA_eq_map_of_mem (l : AttrMap) (k : String) (v : Val)
    (hnd : (l.map Prod.fst).Nodup) (hs : (lookupA l k).isSome = true) :
    setA l k v = l.map (fun p => if p.1 = k then (k, v) else p) := by
  induction l with
  | nil => simp [lookupA] at hs
  | cons a t ih =>
    simp only [List.map, List.nodup_cons] at hnd
    by_cases ha : a.1 = k
    · simp only [setA, ha, if_true, List.map, if_pos ha]
      have ht : ∀ p ∈ t, (fun p : String × Val => if p.1 = k then (k, v) else p) p = id p := by
        intro p hp
        have hne : p.1 ≠ k := by
          intro he
          have hmem : p.1 ∈ t.map Prod.fst := List.mem_map_of_mem Prod.fst hp
          rw [he, ← ha] at hmem
          exact hnd.1 hmem
        simp [hne]
      rw [List.map_congr_left ht, List.map_id]
    · simp only [setA, ha, if_false, List.map, if_neg ha]
      simp only [lookupA, ha, if_false] at hs
      rw [ih hnd.2 hs]

/-- Setting a present key preserves the key list. -/
theorem keys_setA (l : AttrMap) (k : String) (v : Val)
    (hs : (lookupA l k).isSome = true) :
    (setA l k v).map Prod.fst = l.map Prod.fst := by
  induction l with
  | nil => simp [lookupA] at hs
  | cons a t ih =>
    by_cases ha : a.1 = k
    · simp [setA, ha]
    · simp only [lookupA, ha, if_false] at hs
      simp [setA, ha, ih hs]

/-- assignExisting preserves the key list. -/
theorem keys_assignExisting (n : AttrMap) :
    ∀ l : AttrMap, (assignExisting l n).map Prod.fst = l.map Prod.fst := by
  induction n with
  | nil => intro l; rfl
  | cons a t ih =>
    intro l
    have hstep : assignExisting l (a :: t) =
        assignExisting (if (lookupA l a.1).isSome then setA l a.1 a.2 else l) t := rfl
    rw [hstep]
    by_cases hp : (lookupA l a.1).isSome = true
    · rw [if_pos hp, ih, keys_setA l a.1 a.2 hp]
    · rw [if_neg hp, ih]

/-- With unique keys, assignExisting is the pointwise last-assignment
map. -/
theorem assignExisting_eq_map (n : AttrMap) :
    ∀ l : AttrMap, (l.map Prod.fst).Nodup →
      assignExisting l n =
        l.map (fun p => match lastAssign n p.1 with
                        | some w => (p.1, w)
                        | none => p) := by
  induction n with
  | nil =>
    intro l _
    have hid : ∀ p ∈ l, (fun p : String × Val =>
        match lastAssign [] p.1 with
        | some w => (p.1, w)
        | none => p) p = id p := by
      intro p _
      rfl
    rw [List.map_congr_left hid, List.map_id]
    rfl
  | cons a t ih =>
    intro l hnd
    rcases a with ⟨k, w⟩
    have hstep : assignExisting l ((k, w) :: t) =
        assignExisting (if (lookupA l k).isSome then setA l k w else l) t := rfl
    rw [hstep]
    by_cases hp : (lookupA l k).isSome = true
    · rw [if_pos hp, setA_eq_map_of_mem l k w hnd hp]
      have hnd2 : ((l.map (fun p => if p.1 = k then (k, w) else p)).map Prod.fst).Nodup := by
        have : (l.map (fun p : String × Val => if p.1 = k then (k, w) else p)).map Prod.fst =
            l.map Prod.fst := by
          rw [List.map_map]
          apply List.map_congr_left
          intro p _
          by_cases hpk : p.1 = k
          · simp [hpk]
          · simp [hpk]
        rw [this]
        exact hnd
      rw [ih _ hnd2, List.map_map]
      apply List.map_congr_left
      intro p _
      by_cases hpk : p.1 = k
      · simp only [Function.comp, hpk, if_true]
        simp only [lastAssign]
        cases lastAssign t k with
        | some u => simp [hpk]
        | none => simp [hpk]
      · simp only [Function.comp, hpk, if_false]
        simp only [lastAssign]
        have hkp : ¬ (k = p.1) := fun he => hpk he.symm
        cases hlt : lastAssign t p.1 with
        | some u => simp
        | none => simp [hkp]
    · rw [if_neg hp, ih _ hnd]
      apply List.map_congr_left
      intro p hpl
      have hpk : p.1 ≠ k := by
        have hnone : lookupA l k = none := by
          cases hlk : lookupA l k with
          | none => rfl
          | some u => rw [hlk] at hp; exact absurd rfl hp
        exact lookupA_none_not_mem l k hnone p hpl
      simp only [lastAssign]
      have hkp : ¬ (k = p.1) := fun he => hpk he.symm
      cases hlt : lastAssign t p.1 with
      | some u => simp
      | none => simp [hkp]

/-- With unique keys, assigning the same state twice equals assigning it
once. -/
theorem assignExisting_idem (l n : AttrMap)
    (hnd : (l.map Prod.fst).Nodup) :
    assignExisting (assignExisting l n) n = assignExisting l n := by
  have hnd2 : ((assignExisting l n).map Prod.fst).Nodup := by
    rw [keys_assignExisting]
    exact hnd
  rw [assignExisting_eq_map n (assignExisting l n) hnd2,
      assignExisting_eq_map n l hnd, List.map_map]
  apply List.map_congr_left
  intro p _
  cases hla : lastAssign n p.1 with
  | some u => simp [Function.comp, hla]
  | none => simp [Function.comp, hla]

/-- addVertexS preserves the live ACL reference. -/
theorem addVertexS_liveAcl (s : EngineState) (v : Vertex) :
    (addVertexS s v).liveAcl = s.liveAcl := rfl

/-- addVertexS preserves the live DRP reference. -/
theorem addVertexS_liveDrp (s : EngineState) (v : Vertex) :
    (addVertexS s v).liveDrp = s.liveDrp := rfl

/-- initFinality preserves the live ACL reference. -/
theorem initFinality_liveAcl (s : EngineState) (h : String) :
    (initFinality s h).liveAcl = s.liveAcl := by
  unfold initFinality
  cases lookupA s.aclStates h <;> rfl

/-- initFinality preserves the live DRP reference. -/
theorem initFinality_liveDrp (s : EngineState) (h : String) :
    (initFinality s h).liveDrp = s.liveDrp := by
  unfold initFinality
  cases lookupA s.aclStates h <;> rfl

/-- initFinality preserves graph lookups. -/
theorem graphLookup_initFinality (s : EngineState) (h h2 : String) :
    graphLookup (initFinality s h) h2 = graphLookup s h2 := by
  unfold initFinality
  cases lookupA s.aclStates h <;> rfl

/-- One with-DRP iteration preserves the live references. -/
theorem mergeVertexDrp_live (s : EngineState) (w : Vertex) :
    (mergeVertexDrp s w).1.liveAcl = s.liveAcl ∧
    (mergeVertexDrp s w).1.liveDrp = s.liveDrp := by
  unfold mergeVertexDrp
  cases w.operation with
  | none => exact ⟨rfl, rfl⟩
  | some op =>
    dsimp only
    by_cases hg : graphHas s w.hash = true
    · rw [if_pos hg]
      exact ⟨rfl, rfl⟩
    · rw [if_neg hg]
      cases validateVertex s w with
      | error e => exact ⟨rfl, rfl⟩
      | ok u =>
        dsimp only
        by_cases hty : op.drpType = DrpType.DRP
        · rw [if_pos hty]
          cases computeDRP s w.dependencies (some (computeLCA s w.dependencies)) (some op) with
          | error e => exact ⟨rfl, rfl⟩
          | ok drp =>
            dsimp only
            cases computeObjectACL s w.dependencies (some (computeLCA s w.dependencies)) (some op) with
            | error e => exact ⟨rfl, rfl⟩
            | ok aclSt =>
              dsimp only
              constructor
              · rw [initFinality_liveAcl, addVertexS_liveAcl]
              · rw [initFinality_liveDrp, addVertexS_liveDrp]
        · rw [if_neg hty]
          cases computeObjectACL s w.dependencies (some (computeLCA s w.dependencies)) (some op) with
          | error e => exact ⟨rfl, rfl⟩
          | ok acl =>
            dsimp only
            cases computeDRP { s with aclStates := setA s.aclStates w.hash (getDRPStateOf acl) }
                w.dependencies (some (computeLCA s w.dependencies)) (some op) with
            | error e => exact ⟨rfl, rfl⟩
            | ok drpSt =>
              dsimp only
              constructor
              · rw [initFinality_liveAcl, addVertexS_liveAcl]
              · rw [initFinality_liveDrp, addVertexS_liveDrp]

/-- The with-DRP loop preserves the live references. -/
theorem mergeLoopDrp_live (vs : List Vertex) :
    ∀ s, (mergeLoopDrp s vs).1.liveAcl = s.liveAcl ∧
      (mergeLoopDrp s vs).1.liveDrp = s.liveDrp := by
  induction vs with
  | nil => intro s; exact ⟨rfl, rfl⟩
  | cons w t ih =>
    intro s
    rw [mergeLoopDrp_cons]
    exact ⟨(ih _).1.trans (mergeVertexDrp_live s w).1,
           (ih _).2.trans (mergeVertexDrp_live s w).2⟩

/-- A vertex without an operation is skipped. -/
theorem mergeVertexDrp_skip_none (s : EngineState) (v : Vertex)
    (h : v.operation = none) : mergeVertexDrp s v = (s, none, none) := by
  unfold mergeVertexDrp
  rw [h]

/-- A vertex already present is skipped. -/
theorem mergeVertexDrp_skip_has (s : EngineState) (v : Vertex) (op : Operation)
    (hop : v.operation = some op) (h : graphHas s v.hash = true) :
    mergeVertexDrp s v = (s, none, none) := by
  unfold mergeVertexDrp
  rw [hop]
  dsimp only
  rw [if_pos h]

/-- Graph lookups survive one with-DRP iteration. -/
theorem graphLookup_mergeVertexDrp_mono (s : EngineState) (w dv : Vertex)
    (h2 : String) (h : graphLookup s h2 = some dv) :
    graphLookup (mergeVertexDrp s w).1 h2 = some dv := by
  unfold mergeVertexDrp
  cases w.operation with
  | none => exact h
  | some op =>
    dsimp only
    by_cases hg : graphHas s w.hash = true
    · rw [if_pos hg]
      exact h
    · rw [if_neg hg]
      cases validateVertex s w with
      | error e => exact h
      | ok u =>
        dsimp only
        by_cases hty : op.drpType = DrpType.DRP
        · rw [if_pos hty]
          cases computeDRP s w.dependencies (some (computeLCA s w.dependencies)) (some op) with
          | error e => exact h
          | ok drp =>
            dsimp only
            cases computeObjectACL s w.dependencies (some (computeLCA s w.dependencies)) (some op) with
            | error e => exact h
            | ok aclSt =>
              dsimp only
              rw [graphLookup_initFinality]
              exact graphLookup_addVertexS_mono _ w dv h2 h
        · rw [if_neg hty]
          cases computeObjectACL s w.dependencies (some (computeLCA s w.dependencies)) (some op) with
          | error e => exact h
          | ok acl =>
            dsimp only
            cases computeDRP { s with aclStates := setA s.aclStates w.hash (getDRPStateOf acl) }
                w.dependencies (some (computeLCA s w.dependencies)) (some op) with
            | error e => exact h
            | ok drpSt =>
              dsimp only
              rw [graphLookup_initFinality]
              exact graphLookup_addVertexS_mono _ w dv h2 h

/-- Graph lookups survive the with-DRP loop. -/
theorem graphLookup_mergeLoopDrp_mono (vs : List Vertex) :
    ∀ s dv h2, graphLookup s h2 = some dv →
      graphLookup (mergeLoopDrp s vs).1 h2 = some dv := by
  induction vs with
  | nil => intro s dv h2 h; exact h
  | cons w t ih =>
    intro s dv h2 h
    rw [mergeLoopDrp_cons]
    exact ih _ dv h2 (graphLookup_mergeVertexDrp_mono s w dv h2 h)

/-- Presence in the graph survives the with-DRP loop. -/
theorem graphHas_mergeLoopDrp_mono (vs : List Vertex) (s : EngineState)
    (h2 : String) (h : graphHas s h2 = true) :
    graphHas (mergeLoopDrp s vs).1 h2 = true := by
  simp only [graphHas] at h ⊢
  cases hl : graphLookup s h2 with
  | none => rw [hl] at h; simp at h
  | some dv => rw [graphLookup_mergeLoopDrp_mono vs s dv h2 hl]; rfl

/-- An iteration that records no failure leaves the vertex skipped or
admitted. -/
theorem mergeVertexDrp_none_cases (s : EngineState) (w : Vertex)
    (h : (mergeVertexDrp s w).2.1 = none) :
    w.operation = none ∨ graphHas (mergeVertexDrp s w).1 w.hash = true := by
  revert h
  unfold mergeVertexDrp
  cases w.operation with
  | none => intro _; exact Or.inl rfl
  | some op =>
    dsimp only
    by_cases hg : graphHas s w.hash = true
    · rw [if_pos hg]
      intro _
      exact Or.inr hg
    · rw [if_neg hg]
      cases validateVertex s w with
      | error e =>
        intro hc
        exact absurd hc (by simp)
      | ok u =>
        dsimp only
        by_cases hty : op.drpType = DrpType.DRP
        · rw [if_pos hty]
          cases computeDRP s w.dependencies (some (computeLCA s w.dependencies)) (some op) with
          | error e =>
            intro hc
            exact absurd hc (by simp)
          | ok drp =>
            dsimp only
            cases computeObjectACL s w.dependencies (some (computeLCA s w.dependencies)) (some op) with
            | error e =>
              intro hc
              exact absurd hc (by simp)
            | ok aclSt =>
              dsimp only
              intro _
              right
              simp only [graphHas, graphLookup_initFinality]
              have := graphHas_addVertexS_self
                { s with drpStates := setA s.drpStates w.hash (getDRPStateOf drp),
                         aclStates := setA s.aclStates w.hash aclSt } w
              simpa [graphHas] using this
        · rw [if_neg hty]
          cases computeObjectACL s w.dependencies (some (computeLCA s w.dependencies)) (some op) with
          | error e =>
            intro hc
            exact absurd hc (by simp)
          | ok acl =>
            dsimp only
            cases computeDRP { s with aclStates := setA s.aclStates w.hash (getDRPStateOf acl) }
                w.dependencies (some (computeLCA s w.dependencies)) (some op) with
            | error e =>
              intro hc
              exact absurd hc (by simp)
            | ok drpSt =>
              dsimp only
              intro _
              right
              simp only [graphHas, graphLookup_initFinality]
              have := graphHas_addVertexS_self
                { { s with aclStates := setA s.aclStates w.hash (getDRPStateOf acl) } with
                  drpStates := setA s.drpStates w.hash drpSt } w
              simpa [graphHas] using this

/-- When the with-DRP loop reports no failures, every batch vertex is
skipped or ends up in the graph. -/
theorem mergeLoopDrp_missing_nil (vs : List Vertex) :
    ∀ s, (mergeLoopDrp s vs).2.1 = [] →
      ∀ v ∈ vs, v.operation = none ∨ graphHas (mergeLoopDrp s vs).1 v.hash = true := by
  induction vs with
  | nil => intro s _ v hv; simp at hv
  | cons w t ih =>
    intro s hm v hv
    rw [mergeLoopDrp_cons] at hm ⊢
    dsimp only at hm
    rcases List.append_eq_nil.mp hm with ⟨hm1, hm2⟩
    have hw1 : (mergeVertexDrp s w).2.1 = none := by
      cases hx : (mergeVertexDrp s w).2.1 with
      | none => rfl
      | some u => rw [hx] at hm1; simp [Option.toList] at hm1
    rcases List.mem_cons.mp hv with he | hm3
    · subst he
      rcases mergeVertexDrp_none_cases s v hw1 with h1 | h2
      · exact Or.inl h1
      · exact Or.inr (graphHas_mergeLoopDrp_mono t _ v.hash h2)
    · exact ih _ hm2 v hm3

/-- A batch whose every vertex is skipped leaves the loop inert. -/
theorem mergeLoopDrp_all_skip (vs : List Vertex) :
    ∀ s, (∀ v ∈ vs, v.operation = none ∨ graphHas s v.hash = true) →
      mergeLoopDrp s vs = (s, [], []) := by
  induction vs with
  | nil => intro s _; rfl
  | cons w t ih =>
    intro s hall
    have hsk : mergeVertexDrp s w = (s, none, none) := by
      rcases hall w (by simp) with hn | hh
      · exact mergeVertexDrp_skip_none s w hn
      · cases hop : w.operation with
        | none => exact mergeVertexDrp_skip_none s w hop
        | some op => exact mergeVertexDrp_skip_has s w op hop hh
    rw [mergeLoopDrp_cons, hsk]
    dsimp only
    rw [ih s (fun v hv => hall v (List.mem_cons_of_mem _ hv))]
    rfl

/-- getFrontier only reads the frontier field. -/
theorem getFrontier_congr (s s2 : EngineState) (h : s2.frontier = s.frontier) :
    getFrontier s2 = getFrontier s := by
  unfold getFrontier
  rw [h]

/-- computeObjectACL only reads the ACL track, the graph and the
hashgraph algorithms. -/
theorem computeObjectACL_congr (s s2 : EngineState)
    (h1 : s2.aclStates = s.aclStates) (h2 : s2.originalACL = s.originalACL)
    (h3 : s2.aclMethods = s.aclMethods) (h4 : s2.graph = s.graph)
    (h5 : s2.lcaMulti = s.lcaMulti) (deps : List String)
    (pre : Option (String × List Operation)) (vop : Option Operation) :
    computeObjectACL s2 deps pre vop = computeObjectACL s deps pre vop := by
  unfold computeObjectACL computeLCA
  rw [h1, h2, h3, h4, h5]

/-- computeDRP only reads the DRP track, the graph and the hashgraph
algorithms. -/
theorem computeDRP_congr (s s2 : EngineState)
    (h0 : s2.hasDrp = s.hasDrp)
    (h1 : s2.drpStates = s.drpStates) (h2 : s2.originalDRP = s.originalDRP)
    (h3 : s2.drpMethods = s.drpMethods) (h4 : s2.graph = s.graph)
    (h5 : s2.lcaMulti = s.lcaMulti) (deps : List String)
    (pre : Option (String × List Operation)) (vop : Option Operation) :
    computeDRP s2 deps pre vop = computeDRP s deps pre vop := by
  unfold computeDRP computeLCA
  rw [h0, h1, h2, h3, h4, h5]

/-- Updating a field with its own value is the identity. -/
theorem eta_vertices (s : EngineState) (x : List Vertex)
    (h : s.vertices = x) : { s with vertices := x } = s := by
  rw [← h]

/-- Updating the live ACL with its own value is the identity. -/
theorem eta_liveAcl (s : EngineState) (x : AttrMap)
    (h : s.liveAcl = x) : { s with liveAcl := x } = s := by
  rw [← h]

/-- Updating the live DRP with its own value is the identity. -/
theorem eta_liveDrp (s : EngineState) (x : AttrMap)
    (h : s.liveDrp = x) : { s with liveDrp := x } = s := by
  rw [← h]

/-- C8, amended. When a first mergeWithDrp of a batch reports complete
success (missing empty, flag true) and the live references have unique
attribute keys (as JavaScript objects do), a second mergeWithDrp of the
same batch returns (true, empty) again and leaves every observable
unchanged, with one exception the claim misses: subscribers receive one
additional merge notification carrying no vertices. -/
theorem mergeWithDrp_idempotent (s : EngineState) (vs : List Vertex)
    (hndA : (s.liveAcl.map Prod.fst).Nodup)
    (hndD : (s.liveDrp.map Prod.fst).Nodup)
    (h : (mergeWithDrp s vs).2 = Except.ok (true, [])) :
    (mergeWithDrp (mergeWithDrp s vs).1 vs).2 = Except.ok (true, []) ∧
    (mergeWithDrp (mergeWithDrp s vs).1 vs).1.graph = (mergeWithDrp s vs).1.graph ∧
    (mergeWithDrp (mergeWithDrp s vs).1 vs).1.frontier = (mergeWithDrp s vs).1.frontier ∧
    (mergeWithDrp (mergeWithDrp s vs).1 vs).1.vertices = (mergeWithDrp s vs).1.vertices ∧
    (mergeWithDrp (mergeWithDrp s vs).1 vs).1.drpStates = (mergeWithDrp s vs).1.drpStates ∧
    (mergeWithDrp (mergeWithDrp s vs).1 vs).1.aclStates = (mergeWithDrp s vs).1.aclStates ∧
    (mergeWithDrp (mergeWithDrp s vs).1 vs).1.finality = (mergeWithDrp s vs).1.finality ∧
    (mergeWithDrp (mergeWithDrp s vs).1 vs).1.liveAcl = (mergeWithDrp s vs).1.liveAcl ∧
    (mergeWithDrp (mergeWithDrp s vs).1 vs).1.liveDrp = (mergeWithDrp s vs).1.liveDrp ∧
    (mergeWithDrp (mergeWithDrp s vs).1 vs).1.notifications =
      (mergeWithDrp s vs).1.notifications ++ [("merge", [])] := by
  rw [mergeWithDrp_eq] at h
  cases hU1 : updateObjectACLState
      { (mergeLoopDrp s vs).1 with
        vertices := getAllVertices (mergeLoopDrp s vs).1.graph } with
  | error e =>
    rw [hU1] at h
    dsimp only at h
    simp at h
  | ok s3 =>
    rw [hU1] at h
    dsimp only at h
    have hU1b := hU1
    unfold updateObjectACLState at hU1b
    cases hC1 : computeObjectACL
        { (mergeLoopDrp s vs).1 with
          vertices := getAllVertices (mergeLoopDrp s vs).1.graph }
        (getFrontier { (mergeLoopDrp s vs).1 with
          vertices := getAllVertices (mergeLoopDrp s vs).1.graph }) none none with
    | error e =>
      rw [hC1] at hU1b
      dsimp only at hU1b
      simp at hU1b
    | ok st1 =>
      rw [hC1] at hU1b
      dsimp only at hU1b
      injection hU1b with hs3
      cases hU2 : updateDRPState s3 with
      | error e =>
        rw [hU2] at h
        dsimp only at h
        simp at h
      | ok s4 =>
        rw [hU2] at h
        dsimp only at h
        have hU2b := hU2
        unfold updateDRPState at hU2b
        by_cases hD3 : s3.hasDrp = false
        · rw [if_pos hD3] at hU2b
          simp at hU2b
        · rw [if_neg hD3] at hU2b
          cases hC2 : computeDRP s3 (getFrontier s3) none none with
          | error e =>
            rw [hC2] at hU2b
            dsimp only at hU2b
            simp at hU2b
          | ok st2 =>
            rw [hC2] at hU2b
            dsimp only at hU2b
            injection hU2b with hs4
            injection h with hpair
            have hm2 : (mergeLoopDrp s vs).2.1 = [] := congrArg Prod.snd hpair
            have hFirst : mergeWithDrp s vs =
                (notifyS s4 "merge" (mergeLoopDrp s vs).2.2, Except.ok (true, [])) := by
              rw [mergeWithDrp_eq, hU1]
              dsimp only
              rw [hU2]
              dsimp only
              rw [hm2]
              rfl
            -- equations pulling the fields of s3 back to the loop state
            have e3graph : s3.graph = (mergeLoopDrp s vs).1.graph := by rw [← hs3]
            have e3frontier : s3.frontier = (mergeLoopDrp s vs).1.frontier := by rw [← hs3]
            have e3drpst : s3.drpStates = (mergeLoopDrp s vs).1.drpStates := by rw [← hs3]
            have e3aclst : s3.aclStates = (mergeLoopDrp s vs).1.aclStates := by rw [← hs3]
            have e3vert : s3.vertices = getAllVertices (mergeLoopDrp s vs).1.graph := by rw [← hs3]
            have e3fin : s3.finality = (mergeLoopDrp s vs).1.finality := by rw [← hs3]
            have e3hasDrp : s3.hasDrp = (mergeLoopDrp s vs).1.hasDrp := by rw [← hs3]
            have e3oDRP : s3.originalDRP = (mergeLoopDrp s vs).1.originalDRP := by rw [← hs3]
            have e3oACL : s3.originalACL = (mergeLoopDrp s vs).1.originalACL := by rw [← hs3]
            have e3mD : s3.drpMethods = (mergeLoopDrp s vs).1.drpMethods := by rw [← hs3]
            have e3mA : s3.aclMethods = (mergeLoopDrp s vs).1.aclMethods := by rw [← hs3]
            have e3lca : s3.lcaMulti = (mergeLoopDrp s vs).1.lcaMulti := by rw [← hs3]
            have e3acl : s3.liveAcl =
                assignExisting (mergeLoopDrp s vs).1.liveAcl (getDRPStateOf st1) := by rw [← hs3]
            have e3drp : s3.liveDrp = (mergeLoopDrp s vs).1.liveDrp := by rw [← hs3]
            -- equations pulling the fields of s4 back to s3
            have e4graph : s4.graph = s3.graph := by rw [← hs4]
            have e4frontier : s4.frontier = s3.frontier := by rw [← hs4]
            have e4drpst : s4.drpStates = s3.drpStates := by rw [← hs4]
            have e4aclst : s4.aclStates = s3.aclStates := by rw [← hs4]
            have e4vert : s4.vertices = s3.vertices := by rw [← hs4]
            have e4fin : s4.finality = s3.finality := by rw [← hs4]
            have e4hasDrp : s4.hasDrp = s3.hasDrp := by rw [← hs4]
            have e4oDRP : s4.originalDRP = s3.originalDRP := by rw [← hs4]
            have e4oACL : s4.originalACL = s3.originalACL := by rw [← hs4]
            have e4mD : s4.drpMethods = s3.drpMethods := by rw [← hs4]
            have e4mA : s4.aclMethods = s3.aclMethods := by rw [← hs4]
            have e4lca : s4.lcaMulti = s3.lcaMulti := by rw [← hs4]
            have e4acl : s4.liveAcl = s3.liveAcl := by rw [← hs4]
            have e4drp : s4.liveDrp = assignExisting s3.liveDrp (getDRPStateOf st2) := by rw [← hs4]
            rw [hFirst]
            dsimp only
            set N := notifyS s4 "merge" (mergeLoopDrp s vs).2.2 with hNdef
            -- the fields of N
            have nGraph : N.graph = (mergeLoopDrp s vs).1.graph := e4graph.trans e3graph
            have nFrontier : N.frontier = (mergeLoopDrp s vs).1.frontier :=
              e4frontier.trans e3frontier
            have nVert : N.vertices = getAllVertices (mergeLoopDrp s vs).1.graph :=
              e4vert.trans e3vert
            have nDrpst : N.drpStates = (mergeLoopDrp s vs).1.drpStates :=
              e4drpst.trans e3drpst
            have nAclst : N.aclStates = (mergeLoopDrp s vs).1.aclStates :=
              e4aclst.trans e3aclst
            have nHasDrp : N.hasDrp = (mergeLoopDrp s vs).1.hasDrp :=
              e4hasDrp.trans e3hasDrp
            have nOACL : N.originalACL = (mergeLoopDrp s vs).1.originalACL :=
              e4oACL.trans e3oACL
            have nODRP : N.originalDRP = (mergeLoopDrp s vs).1.originalDRP :=
              e4oDRP.trans e3oDRP
            have nMA : N.aclMethods = (mergeLoopDrp s vs).1.aclMethods :=
              e4mA.trans e3mA
            have nMD : N.drpMethods = (mergeLoopDrp s vs).1.drpMethods :=
              e4mD.trans e3mD
            have nLca : N.lcaMulti = (mergeLoopDrp s vs).1.lcaMulti :=
              e4lca.trans e3lca
            have nLiveAcl : N.liveAcl =
                assignExisting (mergeLoopDrp s vs).1.liveAcl (getDRPStateOf st1) :=
              e4acl.trans e3acl
            have nLiveDrp : N.liveDrp =
                assignExisting (mergeLoopDrp s vs).1.liveDrp (getDRPStateOf st2) :=
              e4drp.trans (by rw [e3drp])
            -- the second loop skips everything
            have hskipN : ∀ v ∈ vs, v.operation = none ∨ graphHas N v.hash = true := by
              intro v hv
              rcases mergeLoopDrp_missing_nil vs s hm2 v hv with h1 | h2
              · exact Or.inl h1
              · right
                unfold graphHas graphLookup at h2 ⊢
                rw [nGraph]
                exact h2
            have hloop2 : mergeLoopDrp N vs = (N, [], []) :=
              mergeLoopDrp_all_skip vs N hskipN
            have hNv : N.vertices = getAllVertices N.graph := by
              rw [nVert, nGraph]
            -- the updates at N are inert
            have hndL1 : ((mergeLoopDrp s vs).1.liveAcl.map Prod.fst).Nodup := by
              rw [(mergeLoopDrp_live vs s).1]
              exact hndA
            have hndL2 : ((mergeLoopDrp s vs).1.liveDrp.map Prod.fst).Nodup := by
              rw [(mergeLoopDrp_live vs s).2]
              exact hndD
            have hC1N : computeObjectACL N (getFrontier N) none none = Except.ok st1 := by
              have hgf : getFrontier N =
                  getFrontier { (mergeLoopDrp s vs).1 with
                    vertices := getAllVertices (mergeLoopDrp s vs).1.graph } :=
                getFrontier_congr _ N nFrontier
              rw [hgf]
              exact (computeObjectACL_congr
                { (mergeLoopDrp s vs).1 with
                  vertices := getAllVertices (mergeLoopDrp s vs).1.graph } N
                nAclst nOACL nMA nGraph nLca _ none none).trans hC1
            have hC2N : computeDRP N (getFrontier N) none none = Except.ok st2 := by
              have hgf : getFrontier N = getFrontier s3 :=
                getFrontier_congr s3 N (nFrontier.trans e3frontier.symm)
              rw [hgf]
              exact (computeDRP_congr s3 N (nHasDrp.trans e3hasDrp.symm)
                (nDrpst.trans e3drpst.symm) (nODRP.trans e3oDRP.symm)
                (nMD.trans e3mD.symm) (nGraph.trans e3graph.symm)
                (nLca.trans e3lca.symm) _ none none).trans hC2
            have hU1N : updateObjectACLState N = Except.ok N := by
              unfold updateObjectACLState
              rw [hC1N]
              dsimp only
              congr 1
              apply eta_liveAcl
              rw [nLiveAcl]
              exact (assignExisting_idem (mergeLoopDrp s vs).1.liveAcl
                (getDRPStateOf st1) hndL1).symm
            have hD3N : ¬ N.hasDrp = false := by
              rw [nHasDrp, ← e3hasDrp]
              exact hD3
            have hU2N : updateDRPState N = Except.ok N := by
              unfold updateDRPState
              rw [if_neg hD3N, hC2N]
              dsimp only
              congr 1
              apply eta_liveDrp
              rw [nLiveDrp]
              exact (assignExisting_idem (mergeLoopDrp s vs).1.liveDrp
                (getDRPStateOf st2) hndL2).symm
            have hSecond : mergeWithDrp N vs =
                (notifyS N "merge" [], Except.ok (true, [])) := by
              rw [mergeWithDrp_eq, hloop2]
              dsimp only
              rw [eta_vertices N (getAllVertices N.graph) hNv, hU1N]
              dsimp only
              rw [hU2N]
              rfl
            rw [hSecond]
            exact ⟨rfl, rfl, rfl, rfl, rfl, rfl, rfl, rfl, rfl, rfl⟩

/-- Counterexample to C8 as stated: merge is not idempotent in general.
With a batch listing a child before its parent, the first merge rejects
the child (its dependency is not yet in the graph) and returns
(false, [child]); repeating the same merge on the resulting object now
admits the child and returns (true, []), and the hash graph differs
between the two runs. -/
theorem merge_not_idempotent :
    (mergeWithDrp baseS [lateV, goodV]).2 = Except.ok (false, [lateV.hash]) ∧
    (mergeWithDrp (mergeWithDrp baseS [lateV, goodV]).1 [lateV, goodV]).2 =
      Except.ok (true, []) ∧
    (mergeWithDrp (mergeWithDrp baseS [lateV, goodV]).1 [lateV, goodV]).1.graph ≠
      (mergeWithDrp baseS [lateV, goodV]).1.graph := by
  refine ⟨by decide, by decide, by decide⟩

/-- Witness for C8: a fully successful merge of one valid vertex,
repeated, returns success again and changes nothing but the
notification log. -/
theorem mergeWithDrp_idempotent_witness :
    (mergeWithDrp (mergeWithDrp baseS [goodV]).1 [goodV]).2 = Except.ok (true, []) ∧
    (mergeWithDrp (mergeWithDrp baseS [goodV]).1 [goodV]).1.graph =
      (mergeWithDrp baseS [goodV]).1.graph ∧
    (mergeWithDrp (mergeWithDrp baseS [goodV]).1 [goodV]).1.frontier =
      (mergeWithDrp baseS [goodV]).1.frontier ∧
    (mergeWithDrp (mergeWithDrp baseS [goodV]).1 [goodV]).1.vertices =
      (mergeWithDrp baseS [goodV]).1.vertices ∧
    (mergeWithDrp (mergeWithDrp baseS [goodV]).1 [goodV]).1.drpStates =
      (mergeWithDrp baseS [goodV]).1.drpStates ∧
    (mergeWithDrp (mergeWithDrp baseS [goodV]).1 [goodV]).1.aclStates =
      (mergeWithDrp baseS [goodV]).1.aclStates ∧
    (mergeWithDrp (mergeWithDrp baseS [goodV]).1 [goodV]).1.finality =
      (mergeWithDrp baseS [goodV]).1.finality ∧
    (mergeWithDrp (mergeWithDrp baseS [goodV]).1 [goodV]).1.liveAcl =
      (mergeWithDrp baseS [goodV]).1.liveAcl ∧
    (mergeWithDrp (mergeWithDrp baseS [goodV]).1 [goodV]).1.liveDrp =
      (mergeWithDrp baseS [goodV]).1.liveDrp ∧
    (mergeWithDrp (mergeWithDrp baseS [goodV]).1 [goodV]).1.notifications =
      (mergeWithDrp baseS [goodV]).1.notifications ++ [("merge", [])] :=
  mergeWithDrp_idempotent baseS [goodV] (by decide) (by decide) (by decide)

end TsDrp
